import Mathlib

set_option maxRecDepth 100000

/- Verification of the reconciliation and deduplication engine of the
   ontario-sunshine-salary-dashboard repository.

   The definitions below are a shallow embedding of the core logic of
   `scripts/merge_addendum.py` (functions `deduplicate_with_salary_resolution`,
   `match_key`, `compare_rows`, `normalize_status_col`, `merge_addendum`) and of
   the text normalizer `normalize_text` from `scripts/clean_salary_data.py`.

   Modelling conventions:
   * A pandas cell is a `Value`: the missing-value sentinel (NaN) is
     `Value.null`, text cells are `Value.str`, numeric cells are `Value.num`
     over `Rat` (CSV decimals; no claim here depends on binary float rounding).
   * Python `==` on cells is `pyEqValue`: NaN compares unequal to everything,
     itself included.  Pandas `drop_duplicates`/`isin`, by contrast, treat NaN
     cells (the same `np.nan` object) as equal, which plain `Value` equality
     models.  Pandas `groupby` excludes rows with a null group key
     (`dropna=True` default), which `dupGroupCount` models explicitly.
   * `pd.sort_values` uses an unstable quicksort, so which row survives a
     total-compensation tie is not determined by the source; per spec section
     4.2 rule 4 the reimplementation must pick a deterministic rule, and the
     embedding uses a stable insertion sort (first-loaded row wins ties).
   * Character predicates (`str.strip`, regex whitespace, `str.isprintable`)
     are modelled exactly on the ASCII range; characters at and above U+0080
     are treated as printable non-whitespace (the only such characters this
     pipeline manipulates are typographic punctuation, which is printable).
   * File input/output, encodings and column-name standardization are outside
     the core per the spec and are not modelled; reconcile takes the already
     schema-mapped record lists. -/

/-- A scalar cell value of a record. `null` is the pandas missing-value
sentinel (NaN). -/
inductive Value where
  | null : Value
  | str : String → Value
  | num : Rat → Value
deriving DecidableEq, Repr

/-- A base record: the canonical columns of the salary schema
(`merge_addendum.py` group/compare columns). -/
structure Record where
  sector : Value
  first_name : Value
  last_name : Value
  employer : Value
  job_title : Value
  calendar_year : Value
  salary_paid : Value
  taxable_benefits : Value
deriving DecidableEq, Repr

/-- An addendum record: a base record plus the free-text `status` column. -/
structure ARecord where
  row : Record
  status : Value
deriving DecidableEq, Repr

/-! ## Text normalizer (`clean_salary_data.normalize_text`) -/

/-- The double-quote character (") used by the final
`text.replace(chr(34), chr(34)*2)` step of `normalize_text`. -/
def quoteChar : Char := Char.ofNat 34

/-- The apostrophe character (') that curly quotes are unified to. -/
def apostChar : Char := Char.ofNat 39

/-- Left curly single quote U+2018. -/
def curlyOpen : Char := Char.ofNat 0x2018

/-- Right curly single quote U+2019. -/
def curlyClose : Char := Char.ofNat 0x2019

/-- En dash U+2013. -/
def enDash : Char := Char.ofNat 0x2013

/-- Em dash U+2014. -/
def emDash : Char := Char.ofNat 0x2014

/-- Python whitespace (`str.strip` / regex `\s`), ASCII range. -/
def pyIsSpace (c : Char) : Bool :=
  c = ' ' || c = Char.ofNat 9 || c = Char.ofNat 10 || c = Char.ofNat 11 ||
  c = Char.ofNat 12 || c = Char.ofNat 13

/-- Python `str.strip()`: drop leading and trailing whitespace. -/
def pyStrip (l : List Char) : List Char :=
  ((l.dropWhile pyIsSpace).reverse.dropWhile pyIsSpace).reverse

/-- Worker for `re.sub(r"\s+", " ", text)`: replace each maximal run of
whitespace by a single space.  The flag records whether the previous
character was part of a whitespace run. -/
def collapseAux : Bool → List Char → List Char
  | _, [] => []
  | prevSpace, c :: cs =>
    if pyIsSpace c then
      if prevSpace then collapseAux true cs else ' ' :: collapseAux true cs
    else c :: collapseAux false cs

/-- `re.sub(r"\s+", " ", text)`. -/
def collapseWS (l : List Char) : List Char := collapseAux false l

/-- The curly-quote and dash unification replacements of `normalize_text`
(single-character string replacements, hence a character map). -/
def replaceSpecialChar (c : Char) : Char :=
  if c = curlyOpen || c = curlyClose then apostChar
  else if c = enDash || c = emDash then '-'
  else c

/-- Python `str.isprintable()`, exact on ASCII; characters at and above
U+0080 are treated as printable (see the modelling note at the top). -/
def pyIsPrintable (c : Char) : Bool :=
  if c.toNat < 128 then 32 ≤ c.toNat && c.toNat ≠ 127 else true

/-- `text.replace(chr(34), chr(34)*2)`: double every double-quote. -/
def expandQuotes : List Char → List Char
  | [] => []
  | c :: cs =>
    if c = quoteChar then quoteChar :: quoteChar :: expandQuotes cs
    else c :: expandQuotes cs

/-- The string body of `normalize_text` applied to a (non-null) string:
strip, collapse whitespace runs, unify curly quotes and dashes, remove
non-printable characters, double the double-quotes (in source order). -/
def normalizeStr (s : String) : String :=
  String.mk
    (expandQuotes
      (((collapseWS (pyStrip s.data)).map replaceSpecialChar).filter pyIsPrintable))

/-- `clean_salary_data.normalize_text`: total on `string|null`; the missing
value is returned unchanged (`pd.isna` guard). -/
def normalize_text : Option String → Option String
  | none => none
  | some s => some (normalizeStr s)

/-- Python `str(cell)` for a cell value: the missing value stringifies to
the literal "nan" (`str(float("nan"))`). -/
def pyStrOfValue : Value → String
  | Value.null => "nan"
  | Value.str s => s
  | Value.num q => toString q

/-! ## Numeric coercion (`pd.to_numeric(..., errors="coerce").fillna(0)`) -/

/-- Parse an unsigned decimal numeral (digits with at most one point). -/
def parseUnsignedRat (l : List Char) : Option Rat :=
  let intPart := l.takeWhile Char.isDigit
  let rest := l.dropWhile Char.isDigit
  let natOf : List Char → Nat := fun ds => ds.foldl (fun a c => a * 10 + (c.toNat - 48)) 0
  match rest with
  | [] =>
    if intPart.isEmpty then none else some ((natOf intPart : Nat) : Rat)
  | c :: frac =>
    if c = '.' && !intPart.isEmpty && !frac.isEmpty && frac.all Char.isDigit then
      some (((natOf intPart : Nat) : Rat) + ((natOf frac : Nat) : Rat) / ((10 : Rat) ^ frac.length))
    else none

/-- Parse a decimal numeral with optional leading minus sign. -/
def parseRatStr (s : String) : Option Rat :=
  match s.data with
  | [] => none
  | c :: rest => if c = '-' then (parseUnsignedRat rest).map (fun q => -q) else parseUnsignedRat s.data

/-- `pd.to_numeric(cell, errors="coerce").fillna(0)`: numbers pass through,
missing and malformed cells coerce to 0. -/
def coerceNum : Value → Rat
  | Value.null => 0
  | Value.num q => q
  | Value.str s => (parseRatStr s).getD 0

/-! ## Deduplicator (`deduplicate_with_salary_resolution`) -/

/-- The grouping key of the deduplicator: the raw (unnormalized) cells of
`["sector", "first_name", "last_name", "employer", "job_title",
"calendar_year"]`. -/
abbrev GKey := Value × Value × Value × Value × Value × Value

/-- Grouping key of a base record. -/
def groupKey (r : Record) : GKey :=
  (r.sector, r.first_name, r.last_name, r.employer, r.job_title, r.calendar_year)

/-- A grouping key with no missing component (pandas `groupby` only forms
groups from such keys; rows with a null key component are excluded). -/
def nonNullKey : GKey → Bool
  | (a, b, c, d, e, f) =>
    !(a == Value.null) && !(b == Value.null) && !(c == Value.null) &&
    !(d == Value.null) && !(e == Value.null) && !(f == Value.null)

/-- `total_comp = to_numeric(salary_paid).fillna(0) + to_numeric(taxable_benefits).fillna(0)`. -/
def totalComp (r : Record) : Rat :=
  coerceNum r.salary_paid + coerceNum r.taxable_benefits

/-- Worker for keep-first duplicate dropping: keep each element whose key has
not been seen yet (pandas `drop_duplicates(keep="first")`; NaN cells of a
key compare equal there, which plain `Value` equality models). -/
def keepFirstByAux {α κ : Type} [DecidableEq κ] (key : α → κ) (seen : List κ) :
    List α → List α
  | [] => []
  | x :: xs =>
    if key x ∈ seen then keepFirstByAux key seen xs
    else x :: keepFirstByAux key (key x :: seen) xs

/-- `drop_duplicates(keep="first")` by a key function. -/
def keepFirstBy {α κ : Type} [DecidableEq κ] (key : α → κ) (l : List α) : List α :=
  keepFirstByAux key [] l

/-- Stable insertion into a list sorted descending by `c`. -/
def insertByDesc {α : Type} (c : α → Rat) (x : α) : List α → List α
  | [] => [x]
  | y :: ys => if c y ≤ c x then x :: y :: ys else y :: insertByDesc c x ys

/-- `sort_values(ascending=False)` by `c`, deterministically stable (the
source quicksort leaves total-compensation ties unspecified; spec section 4.2
rule 4 requires the reimplementation to fix a deterministic rule). -/
def sortByDesc {α : Type} (c : α → Rat) : List α → List α
  | [] => []
  | x :: xs => insertByDesc c x (sortByDesc c xs)

/-- The report of one deduplication run. -/
structure DedupStats where
  exact_duplicates_removed : Nat
  non_exact_duplicates_resolved : Nat
deriving DecidableEq, Repr

/-- Number of grouping keys shared by more than one row
(`groupby(group_cols).size()` with `count > 1`): pandas `groupby` drops rows
whose key has a null component, so only fully non-null keys are counted. -/
def dupGroupCount {α : Type} [DecidableEq α] (gkey : α → GKey) (l : List α) : Nat :=
  ((keepFirstBy id (l.map gkey)).filter
    (fun k => nonNullKey k && decide (2 ≤ (l.filter (fun y => gkey y == k)).length))).length

/-- `deduplicate_with_salary_resolution`, generic in the row type (it is run
on the base frame and on the addendum frame, whose rows carry `status`):
drop exact duplicate rows, then, if any (fully non-null) grouping key is
shared by more than one row, sort by total compensation descending and keep
the first row of every key. -/
def deduplicate {α : Type} [DecidableEq α] (gkey : α → GKey) (tcomp : α → Rat)
    (rows : List α) : List α × DedupStats :=
  let noExact := keepFirstBy id rows
  let exactRemoved := rows.length - noExact.length
  let dupGroups := dupGroupCount gkey noExact
  if 0 < dupGroups then
    (keepFirstBy gkey (sortByDesc tcomp noExact),
     { exact_duplicates_removed := exactRemoved,
       non_exact_duplicates_resolved := dupGroups })
  else
    (noExact,
     { exact_duplicates_removed := exactRemoved,
       non_exact_duplicates_resolved := 0 })

/-- `deduplicate_with_salary_resolution` on the base salary frame. -/
def deduplicate_with_salary_resolution (rows : List Record) : List Record × DedupStats :=
  deduplicate groupKey totalComp rows

/-- Grouping key of an addendum row (the group columns do not include
`status`). -/
def groupKeyA (r : ARecord) : GKey := groupKey r.row

/-- Total compensation of an addendum row. -/
def totalCompA (r : ARecord) : Rat := totalComp r.row

/-- `deduplicate_with_salary_resolution` on the addendum frame (exact
duplicate removal compares all columns, `status` included). -/
def dedupeAddendum (rows : List ARecord) : List ARecord × DedupStats :=
  deduplicate groupKeyA totalCompA rows

/-! ## MatchKeyBuilder (`match_key`) -/

/-- The reconciler identity key: normalized text of the four name fields
(`str()` applied first, so a null cell contributes "nan"), and the raw
`calendar_year`; `sector` is excluded. -/
abbrev MatchKey := String × String × String × String × Value

/-- `merge_addendum.match_key`. -/
def match_key (r : Record) : MatchKey :=
  (normalizeStr (pyStrOfValue r.first_name),
   normalizeStr (pyStrOfValue r.last_name),
   normalizeStr (pyStrOfValue r.employer),
   normalizeStr (pyStrOfValue r.job_title),
   r.calendar_year)

/-- Python `==` on two cells: a missing cell (NaN) is unequal to everything,
itself included. -/
def pyEqValue : Value → Value → Bool
  | Value.null, _ => false
  | _, Value.null => false
  | a, b => a == b

/-- `merge_addendum.compare_rows`: cell-wise Python equality over the seven
compare columns (`sector` is not compared). -/
def compare_rows (r1 r2 : Record) : Bool :=
  pyEqValue r1.first_name r2.first_name &&
  pyEqValue r1.last_name r2.last_name &&
  pyEqValue r1.employer r2.employer &&
  pyEqValue r1.job_title r2.job_title &&
  pyEqValue r1.calendar_year r2.calendar_year &&
  pyEqValue r1.salary_paid r2.salary_paid &&
  pyEqValue r1.taxable_benefits r2.taxable_benefits

/-! ## Status vocabulary (`get_status_mapping`, `normalize_status_col`) -/

/-- The fixed status synonym table of `get_status_mapping` (verbatim,
including the trailing-space entries the source lists). -/
def get_status_mapping : List (String × List String) :=
  [("addition", ["added", "add", "added ", "add ", "addition", "addition "]),
   ("changed", ["changed", "change", "changed ", "change ", "promotion",
                "position change", "salary change"]),
   ("deletion", ["deletion", "delete", "deleted", "delete ", "deleted "])]

/-- Python `s.strip().lower()` (ASCII). -/
def stripLower (s : String) : String := (String.mk (pyStrip s.data)).toLower

/-- `normalize_status_col`: a null status stays null; otherwise normalize,
strip and lowercase the text and look it up in the synonym table.  The
source function falls through without a return when nothing matches, i.e.
yields Python `None`, modelled as `Value.null`. -/
def normalize_status_col (status : Value) : Value :=
  match status with
  | Value.null => Value.null
  | s =>
    let ns := stripLower (normalizeStr (pyStrOfValue s))
    match get_status_mapping.find? (fun p => p.2.any (fun syn => stripLower syn == ns)) with
    | some p => Value.str p.1
    | none => Value.null

/-! ## Reconciler (`merge_addendum`) -/

/-- The addendum input as the reconciler sees it: the file may be absent
(pass-through), present but without a resolvable `status` column
(pass-through), or present with a `status` column. -/
inductive AddendumInput where
  | absent : AddendumInput
  | noStatusCol (rows : List Record) : AddendumInput
  | withStatus (rows : List ARecord) : AddendumInput

/-- The null-drop columns of the addendum
(`["sector", "first_name", "last_name", "employer", "job_title",
"salary_paid", "taxable_benefits"]`; note `calendar_year` is not checked). -/
def nonNullRequired (r : Record) : Bool :=
  !(r.sector == Value.null) && !(r.first_name == Value.null) &&
  !(r.last_name == Value.null) && !(r.employer == Value.null) &&
  !(r.job_title == Value.null) && !(r.salary_paid == Value.null) &&
  !(r.taxable_benefits == Value.null)

/-- The addendum frame after the reconciler's own preprocessing:
deduplicate, drop rows with a null in any required column, then normalize
the `status` column in place. -/
def cleanAddendum (rows : List ARecord) : List ARecord :=
  ((dedupeAddendum rows).1.filter (fun a => nonNullRequired a.row)).map
    (fun a => { a with status := normalize_status_col a.status })

/-- `addendum_df[status_col].str.lower() == std` for one row: a null status
never matches. -/
def statusIs (std : String) (a : ARecord) : Bool :=
  match a.status with
  | Value.str s => s.toLower == std
  | _ => false

/-- The `to_add` partition of the addendum. -/
def toAdd (rows : List ARecord) : List ARecord :=
  (cleanAddendum rows).filter (statusIs "addition")

/-- The `to_delete` partition of the addendum. -/
def toDelete (rows : List ARecord) : List ARecord :=
  (cleanAddendum rows).filter (statusIs "deletion")

/-- The `to_change` partition of the addendum. -/
def toChange (rows : List ARecord) : List ARecord :=
  (cleanAddendum rows).filter (statusIs "changed")

/-- The evolving state of the change loop: the current base frame, the
number of skipped changes, and the staged change insertions. -/
structure ChangeState where
  salary : List Record
  skipped : Nat
  needed : List ARecord

/-- One iteration of the change loop of `merge_addendum`: find the base rows
sharing the change row's match key; if any is cell-identical, skip; else if
matches exist, remove them all and stage the change row; else stage the
change row as a new insertion. -/
def changeStep (st : ChangeState) (c : ARecord) : ChangeState :=
  let matching := st.salary.filter (fun r => match_key r == match_key c.row)
  if matching.isEmpty then
    { st with needed := st.needed ++ [c] }
  else if matching.any (fun r => compare_rows c.row r) then
    { st with skipped := st.skipped + 1 }
  else
    { salary := st.salary.filter (fun r => !(match_key r == match_key c.row)),
      skipped := st.skipped,
      needed := st.needed ++ [c] }

/-- The reconciler's operation report (`changes_metadata`). -/
structure Report where
  changes_skipped : Nat
  changes_applied : Nat
deriving DecidableEq, Repr

/-- The deletion step (`if not to_delete.empty: ... ~isin(delete_keys)`):
remove every base row whose match key is the match key of some `to_delete`
row.  Unconditional, not compared cell by cell. -/
def afterDeletions (base1 : List Record) (tDel : List ARecord) : List Record :=
  if tDel.isEmpty then base1
  else base1.filter (fun r => !(tDel.any (fun d => match_key d.row == match_key r)))

/-- The change loop (`if not to_change.empty: for ... in to_change`),
starting from the post-deletion base with no changes yet skipped or
staged. -/
def runChanges (afterDel : List Record) (tChg : List ARecord) : ChangeState :=
  if tChg.isEmpty then { salary := afterDel, skipped := 0, needed := [] }
  else tChg.foldl changeStep { salary := afterDel, skipped := 0, needed := [] }

/-- The concatenation steps: append the staged change insertions
(`pd.concat([salary_df, needed_changes_df])`), then the additions
(`if not to_add.empty: pd.concat([salary_df, to_add])`); the `status` and
`_match_key` helper columns are dropped, hence the projection to `row`. -/
def stagedResult (st : ChangeState) (tAdd : List ARecord) : List Record :=
  let withChanges := st.salary ++ st.needed.map (fun a => a.row)
  if tAdd.isEmpty then withChanges else withChanges ++ tAdd.map (fun a => a.row)

/-- The core of `merge_addendum` (file handling stripped): deduplicate the
base; on pass-through return it unchanged; otherwise preprocess the
addendum, apply deletions, run the change loop, append the staged changes
and the additions, drop the helper columns and deduplicate once more. -/
def reconcile (base : List Record) (addendum : AddendumInput) : List Record × Report :=
  match addendum with
  | AddendumInput.absent =>
    ((deduplicate_with_salary_resolution base).1,
     { changes_skipped := 0, changes_applied := 0 })
  | AddendumInput.noStatusCol _ =>
    ((deduplicate_with_salary_resolution base).1,
     { changes_skipped := 0, changes_applied := 0 })
  | AddendumInput.withStatus rows =>
    let st := runChanges
      (afterDeletions (deduplicate_with_salary_resolution base).1 (toDelete rows))
      (toChange rows)
    ((deduplicate_with_salary_resolution (stagedResult st (toAdd rows))).1,
     { changes_skipped := st.skipped, changes_applied := st.needed.length })


/-! ## Auxiliary definitions used by the verification -/

/-- Characters on which the normalizer is well-behaved: ASCII, printable or
whitespace, and not the double-quote. -/
def goodChar (c : Char) : Bool :=
  decide (c.toNat < 128) && (pyIsPrintable c || pyIsSpace c) && !(c == quoteChar)

/-- Adjacent-character invariant of collapsed text: no two consecutive
whitespace characters. -/
def noAdjSpace (a b : Char) : Prop := ¬(pyIsSpace a = true ∧ pyIsSpace b = true)

/-- Build a concrete record (test inputs for counterexamples and witnesses). -/
def mkRecord (sec fn ln emp jt yr sal ben : Value) : Record :=
  { sector := sec, first_name := fn, last_name := ln, employer := emp,
    job_title := jt, calendar_year := yr, salary_paid := sal, taxable_benefits := ben }

/-- A concrete employee record, parametrized by sector and salary. -/
def exJane (sec : String) (sal : Rat) : Record :=
  mkRecord (Value.str sec) (Value.str "Jane") (Value.str "Doe") (Value.str "Acme")
    (Value.str "Clerk") (Value.num 2023) (Value.num sal) (Value.num 0)

/-- A concrete record with a missing `first_name`, parametrized by salary. -/
def exNullFirst (sal : Rat) : Record :=
  mkRecord (Value.str "A") Value.null (Value.str "Roe") (Value.str "Acme")
    (Value.str "Clerk") (Value.num 2023) (Value.num sal) (Value.num 0)

/-- A concrete record whose `first_name` is the literal string "nan"
(indistinguishable, after `str()`-conversion, from a missing name in the
match key). -/
def exNanFirst (sal : Rat) : Record :=
  mkRecord (Value.str "A") (Value.str "nan") (Value.str "Roe") (Value.str "Acme")
    (Value.str "Clerk") (Value.num 2023) (Value.num sal) (Value.num 0)

/-- A concrete record with a malformed salary cell and a missing benefits
cell (both coerce to 0 in the deduplicator). -/
def exBadNum : Record :=
  mkRecord (Value.str "A") (Value.str "Jane") (Value.str "Doe") (Value.str "Acme")
    (Value.str "Clerk") (Value.num 2023) (Value.str "N/A") Value.null

/-- A concrete record with a missing `calendar_year` (the null-drop does
not check `calendar_year`, so such addendum rows survive it). -/
def exNullYear (sal : Rat) : Record :=
  mkRecord (Value.str "A") (Value.str "Jane") (Value.str "Doe") (Value.str "Acme")
    (Value.str "Clerk") Value.null (Value.num sal) (Value.num 0)

/-! ## Lemmas about the list helpers -/

theorem keepFirstByAux_sublist {α κ : Type} [DecidableEq κ] (key : α → κ) :
    ∀ (l : List α) (seen : List κ), (keepFirstByAux key seen l).Sublist l
  | [], _ => List.Sublist.refl []
  | x :: xs, seen => by
    unfold keepFirstByAux
    by_cases h : key x ∈ seen
    · simp only [if_pos h]
      exact (keepFirstByAux_sublist key xs seen).cons x
    · simp only [if_neg h]
      exact (keepFirstByAux_sublist key xs (key x :: seen)).cons₂ x

theorem keepFirstByAux_mem {α κ : Type} [DecidableEq κ] (key : α → κ)
    (l : List α) (seen : List κ) {x : α} (hx : x ∈ keepFirstByAux key seen l) : x ∈ l :=
  (keepFirstByAux_sublist key l seen).subset hx

theorem keepFirstByAux_key_not_seen {α κ : Type} [DecidableEq κ] (key : α → κ) :
    ∀ (l : List α) (seen : List κ) (y : α), y ∈ keepFirstByAux key seen l → key y ∉ seen
  | [], _, y, hy => by simp [keepFirstByAux] at hy
  | x :: xs, seen, y, hy => by
    unfold keepFirstByAux at hy
    by_cases h : key x ∈ seen
    · rw [if_pos h] at hy
      exact keepFirstByAux_key_not_seen key xs seen y hy
    · rw [if_neg h] at hy
      rcases List.mem_cons.mp hy with rfl | hy'
      · exact h
      · have := keepFirstByAux_key_not_seen key xs (key x :: seen) y hy'
        intro hc
        exact this (List.mem_cons_of_mem _ hc)

theorem keepFirstByAux_rep {α κ : Type} [DecidableEq κ] (key : α → κ) :
    ∀ (l : List α) (seen : List κ) (x : α), x ∈ l → key x ∉ seen →
      ∃ y ∈ keepFirstByAux key seen l, key y = key x
  | [], _, x, hx, _ => absurd hx (List.not_mem_nil x)
  | z :: zs, seen, x, hx, hs => by
    unfold keepFirstByAux
    by_cases h : key z ∈ seen
    · rw [if_pos h]
      rcases List.mem_cons.mp hx with rfl | hx'
      · exact absurd h hs
      · exact keepFirstByAux_rep key zs seen x hx' hs
    · rw [if_neg h]
      by_cases hk : key x = key z
      · exact ⟨z, List.mem_cons_self _ _, hk.symm⟩
      · rcases List.mem_cons.mp hx with rfl | hx'
        · exact absurd rfl hk
        · have hs' : key x ∉ key z :: seen := by
            intro hc
            rcases List.mem_cons.mp hc with hc | hc
            · exact hk hc
            · exact hs hc
          obtain ⟨y, hy, hky⟩ := keepFirstByAux_rep key zs (key z :: seen) x hx' hs'
          exact ⟨y, List.mem_cons_of_mem _ hy, hky⟩

theorem keepFirstByAux_keys_nodup {α κ : Type} [DecidableEq κ] (key : α → κ) :
    ∀ (l : List α) (seen : List κ), ((keepFirstByAux key seen l).map key).Nodup
  | [], _ => by simp [keepFirstByAux]
  | x :: xs, seen => by
    unfold keepFirstByAux
    by_cases h : key x ∈ seen
    · rw [if_pos h]
      exact keepFirstByAux_keys_nodup key xs seen
    · rw [if_neg h]
      simp only [List.map_cons, List.nodup_cons]
      constructor
      · intro hc
        obtain ⟨y, hy, hky⟩ := List.mem_map.mp hc
        have := keepFirstByAux_key_not_seen key xs (key x :: seen) y hy
        exact this (by rw [hky]; exact List.mem_cons_self _ _)
      · exact keepFirstByAux_keys_nodup key xs (key x :: seen)

theorem keepFirstByAux_eq_self {α κ : Type} [DecidableEq κ] (key : α → κ) :
    ∀ (l : List α) (seen : List κ), (l.map key).Nodup → (∀ x ∈ l, key x ∉ seen) →
      keepFirstByAux key seen l = l
  | [], _, _, _ => rfl
  | x :: xs, seen, hnd, hsn => by
    unfold keepFirstByAux
    rw [if_neg (hsn x (List.mem_cons_self _ _))]
    congr 1
    simp only [List.map_cons, List.nodup_cons] at hnd
    refine keepFirstByAux_eq_self key xs (key x :: seen) hnd.2 ?_
    intro y hy hc
    rcases List.mem_cons.mp hc with hc | hc
    · exact hnd.1 (hc ▸ List.mem_map_of_mem key hy)
    · exact hsn y (List.mem_cons_of_mem _ hy) hc

theorem keepFirstByAux_max {α κ : Type} [DecidableEq κ] (key : α → κ) (c : α → Rat) :
    ∀ (l : List α) (seen : List κ), l.Pairwise (fun a b => c b ≤ c a) →
      ∀ r ∈ keepFirstByAux key seen l, ∀ s ∈ l, key s = key r → c s ≤ c r
  | [], _, _, r, hr => by simp [keepFirstByAux] at hr
  | x :: xs, seen, hp, r, hr => by
    intro s hs hks
    have hp' := List.pairwise_cons.mp hp
    unfold keepFirstByAux at hr
    by_cases h : key x ∈ seen
    · rw [if_pos h] at hr
      rcases List.mem_cons.mp hs with rfl | hs'
      · exfalso
        have := keepFirstByAux_key_not_seen key xs seen r hr
        exact this (hks ▸ h)
      · exact keepFirstByAux_max key c xs seen hp'.2 r hr s hs' hks
    · rw [if_neg h] at hr
      rcases List.mem_cons.mp hr with rfl | hr'
      · rcases List.mem_cons.mp hs with rfl | hs'
        · exact le_refl _
        · exact hp'.1 s hs'
      · rcases List.mem_cons.mp hs with rfl | hs'
        · exfalso
          have := keepFirstByAux_key_not_seen key xs (key s :: seen) r hr'
          exact this (hks ▸ List.mem_cons_self _ _)
        · exact keepFirstByAux_max key c xs (key x :: seen) hp'.2 r hr' s hs' hks

theorem keepFirstBy_sublist {α κ : Type} [DecidableEq κ] (key : α → κ) (l : List α) :
    (keepFirstBy key l).Sublist l :=
  keepFirstByAux_sublist key l []

theorem keepFirstBy_rep {α κ : Type} [DecidableEq κ] (key : α → κ) (l : List α)
    {x : α} (hx : x ∈ l) : ∃ y ∈ keepFirstBy key l, key y = key x :=
  keepFirstByAux_rep key l [] x hx (List.not_mem_nil _)

theorem keepFirstBy_keys_nodup {α κ : Type} [DecidableEq κ] (key : α → κ) (l : List α) :
    ((keepFirstBy key l).map key).Nodup :=
  keepFirstByAux_keys_nodup key l []

theorem keepFirstBy_eq_self {α κ : Type} [DecidableEq κ] (key : α → κ) (l : List α)
    (hnd : (l.map key).Nodup) : keepFirstBy key l = l :=
  keepFirstByAux_eq_self key l [] hnd (fun _ _ => List.not_mem_nil _)

theorem keepFirstBy_id_mem_iff {α : Type} [DecidableEq α] (l : List α) (x : α) :
    x ∈ keepFirstBy id l ↔ x ∈ l := by
  constructor
  · exact fun hx => keepFirstByAux_mem id l [] hx
  · intro hx
    obtain ⟨y, hy, hky⟩ := keepFirstBy_rep id l hx
    have hyx : y = x := hky
    exact hyx ▸ hy

theorem keepFirstBy_id_nodup {α : Type} [DecidableEq α] (l : List α) :
    (keepFirstBy id l).Nodup := by
  have := keepFirstBy_keys_nodup id l
  simpa using this

theorem insertByDesc_perm {α : Type} (c : α → Rat) (x : α) :
    ∀ l : List α, (insertByDesc c x l).Perm (x :: l)
  | [] => List.Perm.refl _
  | y :: ys => by
    unfold insertByDesc
    by_cases h : c y ≤ c x
    · rw [if_pos h]
    · rw [if_neg h]
      exact ((insertByDesc_perm c x ys).cons y).trans (List.Perm.swap x y ys)

theorem sortByDesc_perm {α : Type} (c : α → Rat) :
    ∀ l : List α, (sortByDesc c l).Perm l
  | [] => List.Perm.refl _
  | x :: xs =>
    (insertByDesc_perm c x (sortByDesc c xs)).trans ((sortByDesc_perm c xs).cons x)

theorem insertByDesc_sorted {α : Type} (c : α → Rat) (x : α) :
    ∀ l : List α, l.Pairwise (fun a b => c b ≤ c a) →
      (insertByDesc c x l).Pairwise (fun a b => c b ≤ c a)
  | [], _ => List.pairwise_singleton _ _
  | y :: ys, hp => by
    have hp' := List.pairwise_cons.mp hp
    unfold insertByDesc
    by_cases h : c y ≤ c x
    · rw [if_pos h]
      refine List.pairwise_cons.mpr ⟨?_, hp⟩
      intro z hz
      rcases List.mem_cons.mp hz with rfl | hz'
      · exact h
      · exact le_trans (hp'.1 z hz') h
    · rw [if_neg h]
      refine List.pairwise_cons.mpr ⟨?_, insertByDesc_sorted c x ys hp'.2⟩
      intro z hz
      rcases List.mem_cons.mp ((insertByDesc_perm c x ys).mem_iff.mp hz) with rfl | hz'
      · exact le_of_not_le h
      · exact hp'.1 z hz'

theorem sortByDesc_sorted {α : Type} (c : α → Rat) :
    ∀ l : List α, (sortByDesc c l).Pairwise (fun a b => c b ≤ c a)
  | [] => List.Pairwise.nil
  | x :: xs => insertByDesc_sorted c x (sortByDesc c xs) (sortByDesc_sorted c xs)

theorem eq_of_mem_of_length_le_one {α : Type} {l : List α} (h : l.length ≤ 1)
    {a b : α} (ha : a ∈ l) (hb : b ∈ l) : a = b := by
  match l with
  | [] => exact absurd ha (List.not_mem_nil a)
  | [x] =>
    rw [List.mem_singleton.mp ha, List.mem_singleton.mp hb]
  | x :: y :: t => simp at h

theorem length_filter_key_le_one {α κ : Type} [BEq κ] [LawfulBEq κ] (key : α → κ) :
    ∀ l : List α, ((l.map key).Nodup) → ∀ k : κ,
      (l.filter (fun y => key y == k)).length ≤ 1
  | [], _, k => by simp
  | x :: xs, hnd, k => by
    simp only [List.map_cons, List.nodup_cons] at hnd
    rw [List.filter_cons]
    by_cases h : key x == k
    · simp only [h, if_pos]
      have : xs.filter (fun y => key y == k) = [] := by
        rw [List.filter_eq_nil_iff]
        intro y hy
        intro hc
        apply hnd.1
        have : key y = k := by simpa using hc
        have hxk : key x = k := by simpa using h
        rw [hxk, ← this]
        exact List.mem_map_of_mem key hy
      simp [this]
    · simp only [h]
      simp only [Bool.false_eq_true, if_neg, reduceIte]
      exact length_filter_key_le_one key xs hnd.2 k

/-! ## Lemmas about the deduplicator -/

theorem deduplicate_subset {α : Type} [DecidableEq α] (gkey : α → GKey) (tcomp : α → Rat)
    (rows : List α) : ∀ r ∈ (deduplicate gkey tcomp rows).1, r ∈ rows := by
  intro r hr
  unfold deduplicate at hr
  by_cases h : 0 < dupGroupCount gkey (keepFirstBy id rows)
  · simp only [if_pos h] at hr
    have h1 := keepFirstByAux_mem gkey _ [] hr
    have h2 := (sortByDesc_perm tcomp (keepFirstBy id rows)).mem_iff.mp h1
    exact keepFirstByAux_mem id rows [] h2
  · simp only [if_neg h] at hr
    exact keepFirstByAux_mem id rows [] hr

theorem deduplicate_rep {α : Type} [DecidableEq α] (gkey : α → GKey) (tcomp : α → Rat)
    (rows : List α) : ∀ x ∈ rows, ∃ y ∈ (deduplicate gkey tcomp rows).1, gkey y = gkey x := by
  intro x hx
  have hx1 : x ∈ keepFirstBy id rows := (keepFirstBy_id_mem_iff rows x).mpr hx
  unfold deduplicate
  by_cases h : 0 < dupGroupCount gkey (keepFirstBy id rows)
  · simp only [if_pos h]
    have hx2 : x ∈ sortByDesc tcomp (keepFirstBy id rows) :=
      (sortByDesc_perm tcomp (keepFirstBy id rows)).mem_iff.mpr hx1
    exact keepFirstBy_rep gkey _ hx2
  · simp only [if_neg h]
    exact ⟨x, hx1, rfl⟩

theorem deduplicate_nodup {α : Type} [DecidableEq α] (gkey : α → GKey) (tcomp : α → Rat)
    (rows : List α) : (deduplicate gkey tcomp rows).1.Nodup := by
  unfold deduplicate
  by_cases h : 0 < dupGroupCount gkey (keepFirstBy id rows)
  · simp only [if_pos h]
    refine (keepFirstBy_sublist gkey _).nodup ?_
    exact ((sortByDesc_perm tcomp (keepFirstBy id rows)).nodup_iff).mpr
      (keepFirstBy_id_nodup rows)
  · simp only [if_neg h]
    exact keepFirstBy_id_nodup rows

theorem dupGroupCount_eq_zero_of_le_one {α : Type} [DecidableEq α] (gkey : α → GKey)
    (l : List α)
    (h : ∀ k, nonNullKey k = true → (l.filter (fun y => gkey y == k)).length ≤ 1) :
    dupGroupCount gkey l = 0 := by
  unfold dupGroupCount
  rw [List.length_eq_zero]
  rw [List.filter_eq_nil_iff]
  intro k _
  by_cases hk : nonNullKey k = true
  · have := h k hk
    simp only [hk, Bool.true_and, decide_eq_true_eq]
    omega
  · simp only [Bool.not_eq_true] at hk
    simp [hk]

theorem le_one_of_dupGroupCount_eq_zero {α : Type} [DecidableEq α] (gkey : α → GKey)
    (l : List α) (h : dupGroupCount gkey l = 0) :
    ∀ k, nonNullKey k = true → (l.filter (fun y => gkey y == k)).length ≤ 1 := by
  intro k hk
  by_contra hc
  push_neg at hc
  have htwo : 2 ≤ (l.filter (fun y => gkey y == k)).length := hc
  have hne : (l.filter (fun y => gkey y == k)) ≠ [] := by
    intro he
    rw [he] at htwo
    simp at htwo
  obtain ⟨y, hy⟩ := List.exists_mem_of_ne_nil _ hne
  have hyl : y ∈ l := (List.mem_filter.mp hy).1
  have hyk : gkey y = k := by
    have := (List.mem_filter.mp hy).2
    simpa using this
  have hkmem : k ∈ l.map gkey := hyk ▸ List.mem_map_of_mem gkey hyl
  have hkkept : k ∈ keepFirstBy id (l.map gkey) :=
    (keepFirstBy_id_mem_iff (l.map gkey) k).mpr hkmem
  unfold dupGroupCount at h
  rw [List.length_eq_zero, List.filter_eq_nil_iff] at h
  have := h k hkkept
  simp only [hk, Bool.true_and, decide_eq_true_eq] at this
  omega

theorem deduplicate_nonnull_unique {α : Type} [DecidableEq α] (gkey : α → GKey)
    (tcomp : α → Rat) (rows : List α) :
    ∀ k, nonNullKey k = true →
      ((deduplicate gkey tcomp rows).1.filter (fun y => gkey y == k)).length ≤ 1 := by
  intro k hk
  unfold deduplicate
  by_cases h : 0 < dupGroupCount gkey (keepFirstBy id rows)
  · simp only [if_pos h]
    exact length_filter_key_le_one gkey _ (keepFirstBy_keys_nodup gkey _) k
  · simp only [if_neg h]
    have hz : dupGroupCount gkey (keepFirstBy id rows) = 0 := by omega
    exact le_one_of_dupGroupCount_eq_zero gkey _ hz k hk

theorem deduplicate_eq_self {α : Type} [DecidableEq α] (gkey : α → GKey) (tcomp : α → Rat)
    (rows : List α) (h1 : keepFirstBy id rows = rows) (h2 : dupGroupCount gkey rows = 0) :
    deduplicate gkey tcomp rows =
      (rows, { exact_duplicates_removed := 0, non_exact_duplicates_resolved := 0 }) := by
  unfold deduplicate
  simp only [h1, h2]
  simp

theorem deduplicate_fix {α : Type} [DecidableEq α] (gkey : α → GKey) (tcomp : α → Rat)
    (rows : List α) :
    deduplicate gkey tcomp (deduplicate gkey tcomp rows).1 =
      ((deduplicate gkey tcomp rows).1,
       { exact_duplicates_removed := 0, non_exact_duplicates_resolved := 0 }) := by
  have hnd : (deduplicate gkey tcomp rows).1.Nodup := deduplicate_nodup gkey tcomp rows
  refine deduplicate_eq_self gkey tcomp _ ?_ ?_
  · exact keepFirstBy_eq_self id _ (by simpa using hnd)
  · exact dupGroupCount_eq_zero_of_le_one gkey _ (deduplicate_nonnull_unique gkey tcomp rows)

theorem deduplicate_max {α : Type} [DecidableEq α] (gkey : α → GKey) (tcomp : α → Rat)
    (rows : List α) :
    ∀ r ∈ (deduplicate gkey tcomp rows).1, ∀ s ∈ rows, gkey s = gkey r →
      nonNullKey (gkey r) = true → tcomp s ≤ tcomp r := by
  intro r hr s hs hkey hnn
  have hs1 : s ∈ keepFirstBy id rows := (keepFirstBy_id_mem_iff rows s).mpr hs
  unfold deduplicate at hr
  by_cases h : 0 < dupGroupCount gkey (keepFirstBy id rows)
  · simp only [if_pos h] at hr
    have hs2 : s ∈ sortByDesc tcomp (keepFirstBy id rows) :=
      (sortByDesc_perm tcomp (keepFirstBy id rows)).mem_iff.mpr hs1
    exact keepFirstByAux_max gkey tcomp _ [] (sortByDesc_sorted tcomp _) r hr s hs2 hkey
  · simp only [if_neg h] at hr
    have hz : dupGroupCount gkey (keepFirstBy id rows) = 0 := by omega
    have hle := le_one_of_dupGroupCount_eq_zero gkey _ hz (gkey r) hnn
    have hrf : r ∈ (keepFirstBy id rows).filter (fun y => gkey y == gkey r) :=
      List.mem_filter.mpr ⟨hr, by simp⟩
    have hsf : s ∈ (keepFirstBy id rows).filter (fun y => gkey y == gkey r) :=
      List.mem_filter.mpr ⟨hs1, by simp [hkey]⟩
    rw [eq_of_mem_of_length_le_one hle hsf hrf]

/-! ## Lemmas about the reconciler pipeline -/

theorem match_key_eq_of_groupKey_eq {r s : Record} (h : groupKey r = groupKey s) :
    match_key r = match_key s := by
  unfold groupKey at h
  simp only [Prod.mk.injEq] at h
  obtain ⟨h1, h2, h3, h4, h5, h6⟩ := h
  unfold match_key
  rw [h2, h3, h4, h5, h6]

theorem changeStep_salary_subset (st : ChangeState) (c : ARecord) :
    ∀ r ∈ (changeStep st c).salary, r ∈ st.salary := by
  intro r hr
  unfold changeStep at hr
  by_cases h1 : (st.salary.filter (fun r => match_key r == match_key c.row)).isEmpty
  · simpa [h1] using hr
  · rw [if_neg (by simp [h1])] at hr
    by_cases h2 : st.salary.filter (fun r => match_key r == match_key c.row)
        |>.any (fun r => compare_rows c.row r)
    · simpa [h2] using hr
    · rw [if_neg (by simp [h2])] at hr
      exact (List.mem_filter.mp hr).1

theorem foldl_changeStep_salary_subset :
    ∀ (cs : List ARecord) (st : ChangeState), ∀ r ∈ (cs.foldl changeStep st).salary,
      r ∈ st.salary
  | [], _, _, hr => hr
  | c :: cs, st, r, hr =>
    changeStep_salary_subset st c r
      (foldl_changeStep_salary_subset cs (changeStep st c) r hr)

theorem changeStep_needed_cases (st : ChangeState) (c : ARecord) :
    ∀ a ∈ (changeStep st c).needed, a ∈ st.needed ∨ a = c := by
  intro a ha
  unfold changeStep at ha
  by_cases h1 : (st.salary.filter (fun r => match_key r == match_key c.row)).isEmpty
  · rw [if_pos h1] at ha
    simpa using List.mem_append.mp ha
  · rw [if_neg h1] at ha
    by_cases h2 : st.salary.filter (fun r => match_key r == match_key c.row)
        |>.any (fun r => compare_rows c.row r)
    · rw [if_pos h2] at ha
      exact Or.inl ha
    · rw [if_neg h2] at ha
      simpa using List.mem_append.mp ha

theorem foldl_changeStep_needed_cases :
    ∀ (cs : List ARecord) (st : ChangeState), ∀ a ∈ (cs.foldl changeStep st).needed,
      a ∈ st.needed ∨ a ∈ cs
  | [], _, a, ha => Or.inl ha
  | c :: cs, st, a, ha => by
    rcases foldl_changeStep_needed_cases cs (changeStep st c) a ha with h | h
    · rcases changeStep_needed_cases st c a h with h' | h'
      · exact Or.inl h'
      · exact Or.inr (h' ▸ List.mem_cons_self _ _)
    · exact Or.inr (List.mem_cons_of_mem _ h)

theorem runChanges_salary_subset (afterDel : List Record) (tChg : List ARecord) :
    ∀ r ∈ (runChanges afterDel tChg).salary, r ∈ afterDel := by
  intro r hr
  unfold runChanges at hr
  by_cases h : tChg.isEmpty
  · rw [if_pos h] at hr
    exact hr
  · rw [if_neg h] at hr
    exact foldl_changeStep_salary_subset tChg _ r hr

theorem runChanges_needed_subset (afterDel : List Record) (tChg : List ARecord) :
    ∀ a ∈ (runChanges afterDel tChg).needed, a ∈ tChg := by
  intro a ha
  unfold runChanges at ha
  by_cases h : tChg.isEmpty
  · rw [if_pos h] at ha
    simp at ha
  · rw [if_neg h] at ha
    rcases foldl_changeStep_needed_cases tChg _ a ha with h' | h'
    · simp at h'
    · exact h'

theorem afterDeletions_subset (base1 : List Record) (tDel : List ARecord) :
    ∀ r ∈ afterDeletions base1 tDel, r ∈ base1 := by
  intro r hr
  unfold afterDeletions at hr
  by_cases h : tDel.isEmpty
  · rw [if_pos h] at hr
    exact hr
  · rw [if_neg h] at hr
    exact (List.mem_filter.mp hr).1

theorem afterDeletions_no_delete_key (base1 : List Record) (tDel : List ARecord) :
    ∀ r ∈ afterDeletions base1 tDel, ∀ d ∈ tDel, match_key d.row ≠ match_key r := by
  intro r hr d hd
  unfold afterDeletions at hr
  by_cases h : tDel.isEmpty
  · rw [List.isEmpty_iff] at h
    rw [h] at hd
    exact absurd hd (List.not_mem_nil d)
  · rw [if_neg (by simp [h])] at hr
    have := (List.mem_filter.mp hr).2
    simp only [Bool.not_eq_eq_eq_not, Bool.not_true, List.any_eq_false] at this
    intro hc
    have hfalse := this d hd
    simp [hc] at hfalse

theorem cleanAddendum_source (rows : List ARecord) :
    ∀ a ∈ cleanAddendum rows, ∃ b ∈ rows, a.row = b.row ∧
      a.status = normalize_status_col b.status ∧ nonNullRequired a.row = true := by
  intro a ha
  unfold cleanAddendum at ha
  obtain ⟨b, hb, hba⟩ := List.mem_map.mp ha
  have hb1 : b ∈ (dedupeAddendum rows).1 := (List.mem_filter.mp hb).1
  have hb2 : nonNullRequired b.row = true := (List.mem_filter.mp hb).2
  have hbrows : b ∈ rows := deduplicate_subset groupKeyA totalCompA rows b hb1
  refine ⟨b, hbrows, ?_, ?_, ?_⟩
  · rw [← hba]
  · rw [← hba]
  · rw [← hba]
    exact hb2

theorem toDelete_subset_clean (rows : List ARecord) :
    ∀ d ∈ toDelete rows, d ∈ cleanAddendum rows := by
  intro d hd
  exact (List.mem_filter.mp hd).1

theorem toChange_subset_clean (rows : List ARecord) :
    ∀ d ∈ toChange rows, d ∈ cleanAddendum rows := by
  intro d hd
  exact (List.mem_filter.mp hd).1

theorem toAdd_subset_clean (rows : List ARecord) :
    ∀ d ∈ toAdd rows, d ∈ cleanAddendum rows := by
  intro d hd
  exact (List.mem_filter.mp hd).1

theorem reconcile_withStatus_merged (base : List Record) (rows : List ARecord) :
    (reconcile base (AddendumInput.withStatus rows)).1 =
      (deduplicate_with_salary_resolution
        (stagedResult
          (runChanges
            (afterDeletions (deduplicate_with_salary_resolution base).1 (toDelete rows))
            (toChange rows))
          (toAdd rows))).1 := by
  unfold reconcile
  rfl

theorem stagedResult_mem_cases (st : ChangeState) (tAdd : List ARecord) :
    ∀ r ∈ stagedResult st tAdd,
      r ∈ st.salary ∨ (∃ a ∈ st.needed, r = a.row) ∨ (∃ a ∈ tAdd, r = a.row) := by
  intro r hr
  unfold stagedResult at hr
  by_cases h : tAdd.isEmpty
  · rw [if_pos h] at hr
    rcases List.mem_append.mp hr with h' | h'
    · exact Or.inl h'
    · obtain ⟨a, ha, har⟩ := List.mem_map.mp h'
      exact Or.inr (Or.inl ⟨a, ha, har.symm⟩)
  · rw [if_neg h] at hr
    rcases List.mem_append.mp hr with h' | h'
    · rcases List.mem_append.mp h' with h'' | h''
      · exact Or.inl h''
      · obtain ⟨a, ha, har⟩ := List.mem_map.mp h''
        exact Or.inr (Or.inl ⟨a, ha, har.symm⟩)
    · obtain ⟨a, ha, har⟩ := List.mem_map.mp h'
      exact Or.inr (Or.inr ⟨a, ha, har.symm⟩)

theorem reconcile_mem_cases (base : List Record) (rows : List ARecord) :
    ∀ r ∈ (reconcile base (AddendumInput.withStatus rows)).1,
      (r ∈ (deduplicate_with_salary_resolution base).1 ∧
        ∀ d ∈ toDelete rows, match_key d.row ≠ match_key r) ∨
      (∃ a ∈ toChange rows, r = a.row) ∨ (∃ a ∈ toAdd rows, r = a.row) := by
  intro r hr
  rw [reconcile_withStatus_merged] at hr
  have hr1 := deduplicate_subset groupKey totalComp _ r hr
  rcases stagedResult_mem_cases _ _ r hr1 with h | h | h
  · have h2 := runChanges_salary_subset _ _ r h
    exact Or.inl ⟨afterDeletions_subset _ _ r h2,
      afterDeletions_no_delete_key _ _ r h2⟩
  · obtain ⟨a, ha, har⟩ := h
    exact Or.inr (Or.inl ⟨a, runChanges_needed_subset _ _ a ha, har⟩)
  · exact Or.inr (Or.inr h)

/-! ## Lemmas about status resolution and the pass-through paths -/

theorem normalize_status_col_cases (v : Value) :
    normalize_status_col v = Value.null ∨
    normalize_status_col v = Value.str "addition" ∨
    normalize_status_col v = Value.str "changed" ∨
    normalize_status_col v = Value.str "deletion" := by
  unfold normalize_status_col
  match v with
  | Value.null => exact Or.inl rfl
  | Value.str s =>
    cases hf : get_status_mapping.find?
        (fun p => p.2.any (fun syn => stripLower syn == stripLower (normalizeStr (pyStrOfValue (Value.str s))))) with
    | none => exact Or.inl (by simp [hf])
    | some p =>
      have hp : p ∈ get_status_mapping := List.mem_of_find?_eq_some hf
      have : p.1 = "addition" ∨ p.1 = "changed" ∨ p.1 = "deletion" := by
        simp only [get_status_mapping, List.mem_cons, List.not_mem_nil, or_false] at hp
        rcases hp with rfl | rfl | rfl
        · exact Or.inl rfl
        · exact Or.inr (Or.inl rfl)
        · exact Or.inr (Or.inr rfl)
      rcases this with h1 | h1 | h1
      · exact Or.inr (Or.inl (by simp [hf, h1]))
      · exact Or.inr (Or.inr (Or.inl (by simp [hf, h1])))
      · exact Or.inr (Or.inr (Or.inr (by simp [hf, h1])))
  | Value.num q =>
    cases hf : get_status_mapping.find?
        (fun p => p.2.any (fun syn => stripLower syn == stripLower (normalizeStr (pyStrOfValue (Value.num q))))) with
    | none => exact Or.inl (by simp [hf])
    | some p =>
      have hp : p ∈ get_status_mapping := List.mem_of_find?_eq_some hf
      have : p.1 = "addition" ∨ p.1 = "changed" ∨ p.1 = "deletion" := by
        simp only [get_status_mapping, List.mem_cons, List.not_mem_nil, or_false] at hp
        rcases hp with rfl | rfl | rfl
        · exact Or.inl rfl
        · exact Or.inr (Or.inl rfl)
        · exact Or.inr (Or.inr rfl)
      rcases this with h1 | h1 | h1
      · exact Or.inr (Or.inl (by simp [hf, h1]))
      · exact Or.inr (Or.inr (Or.inl (by simp [hf, h1])))
      · exact Or.inr (Or.inr (Or.inr (by simp [hf, h1])))

theorem statusIs_false_of_null (std : String) (a : ARecord) (h : a.status = Value.null) :
    statusIs std a = false := by
  unfold statusIs
  rw [h]

theorem toAdd_eq_nil_of_unresolvable (rows : List ARecord)
    (h : ∀ a ∈ rows, normalize_status_col a.status = Value.null) : toAdd rows = [] := by
  unfold toAdd
  rw [List.filter_eq_nil_iff]
  intro a ha
  obtain ⟨b, hb, _, hstat, _⟩ := cleanAddendum_source rows a ha
  simp [statusIs_false_of_null _ a (hstat.trans (h b hb))]

theorem toDelete_eq_nil_of_unresolvable (rows : List ARecord)
    (h : ∀ a ∈ rows, normalize_status_col a.status = Value.null) : toDelete rows = [] := by
  unfold toDelete
  rw [List.filter_eq_nil_iff]
  intro a ha
  obtain ⟨b, hb, _, hstat, _⟩ := cleanAddendum_source rows a ha
  simp [statusIs_false_of_null _ a (hstat.trans (h b hb))]

theorem toChange_eq_nil_of_unresolvable (rows : List ARecord)
    (h : ∀ a ∈ rows, normalize_status_col a.status = Value.null) : toChange rows = [] := by
  unfold toChange
  rw [List.filter_eq_nil_iff]
  intro a ha
  obtain ⟨b, hb, _, hstat, _⟩ := cleanAddendum_source rows a ha
  simp [statusIs_false_of_null _ a (hstat.trans (h b hb))]

theorem runChanges_nil (afterDel : List Record) :
    runChanges afterDel [] = { salary := afterDel, skipped := 0, needed := [] } := rfl

theorem stagedResult_nil (afterDel : List Record) :
    stagedResult { salary := afterDel, skipped := 0, needed := [] } [] = afterDel := by
  unfold stagedResult
  simp

theorem afterDeletions_nil (base1 : List Record) : afterDeletions base1 [] = base1 := rfl

theorem afterDeletions_eq_self (m : List Record) (tDel : List ARecord)
    (h : ∀ r ∈ m, ∀ d ∈ tDel, match_key d.row ≠ match_key r) :
    afterDeletions m tDel = m := by
  unfold afterDeletions
  by_cases he : tDel.isEmpty
  · rw [if_pos he]
  · rw [if_neg he]
    rw [List.filter_eq_self]
    intro r hr
    simp only [Bool.not_eq_true', List.any_eq_false]
    intro d hd
    simp [h r hr d hd]

theorem reconcile_merged_of_no_add_change (base : List Record) (rows : List ARecord)
    (hA : toAdd rows = []) (hC : toChange rows = []) :
    (reconcile base (AddendumInput.withStatus rows)).1 =
      (deduplicate_with_salary_resolution
        (afterDeletions (deduplicate_with_salary_resolution base).1 (toDelete rows))).1 := by
  rw [reconcile_withStatus_merged, hA, hC, runChanges_nil, stagedResult_nil]

/-! ## Lemmas about the text normalizer -/

theorem head_dropWhile_false (p : Char → Bool) :
    ∀ (l : List Char) (h : Char), (l.dropWhile p).head? = some h → p h = false
  | [], h, hh => by simp [List.dropWhile] at hh
  | c :: cs, h, hh => by
    rw [List.dropWhile_cons] at hh
    by_cases hc : p c
    · rw [if_pos hc] at hh
      exact head_dropWhile_false p cs h hh
    · rw [if_neg hc] at hh
      simp only [List.head?_cons, Option.some.injEq] at hh
      rw [← hh]
      exact Bool.eq_false_iff.mpr hc

theorem dropWhile_eq_self_of_head (p : Char → Bool) (l : List Char)
    (h : ∀ x, l.head? = some x → p x = false) : l.dropWhile p = l := by
  cases l with
  | nil => rfl
  | cons c cs =>
    rw [List.dropWhile_cons, if_neg]
    simp [h c rfl]

theorem pyStrip_append (l : List Char) : ∃ t, pyStrip l ++ t = l.dropWhile pyIsSpace := by
  unfold pyStrip
  set m := l.dropWhile pyIsSpace with hm
  refine ⟨(m.reverse.takeWhile pyIsSpace).reverse, ?_⟩
  have : m.reverse.takeWhile pyIsSpace ++ m.reverse.dropWhile pyIsSpace = m.reverse :=
    List.takeWhile_append_dropWhile _ _
  calc (m.reverse.dropWhile pyIsSpace).reverse ++ (m.reverse.takeWhile pyIsSpace).reverse
      = (m.reverse.takeWhile pyIsSpace ++ m.reverse.dropWhile pyIsSpace).reverse := by
        rw [List.reverse_append]
    _ = m.reverse.reverse := by rw [this]
    _ = m := List.reverse_reverse m

theorem pyStrip_head (l : List Char) :
    ∀ h, (pyStrip l).head? = some h → pyIsSpace h = false := by
  intro h hh
  obtain ⟨t, ht⟩ := pyStrip_append l
  cases hs : pyStrip l with
  | nil => rw [hs] at hh; simp at hh
  | cons c cs =>
    rw [hs] at hh
    simp only [List.head?_cons, Option.some.injEq] at hh
    rw [hs] at ht
    have : (l.dropWhile pyIsSpace).head? = some c := by
      rw [← ht]
      rfl
    rw [← hh]
    exact head_dropWhile_false pyIsSpace l c this

theorem pyStrip_last (l : List Char) :
    ∀ h, (pyStrip l).getLast? = some h → pyIsSpace h = false := by
  intro h hh
  have hrev : (pyStrip l).reverse.head? = some h := by
    rw [List.head?_reverse]
    exact hh
  unfold pyStrip at hrev
  rw [List.reverse_reverse] at hrev
  exact head_dropWhile_false pyIsSpace _ h hrev

theorem pyStrip_eq_self (l : List Char)
    (hh : ∀ x, l.head? = some x → pyIsSpace x = false)
    (hl : ∀ x, l.getLast? = some x → pyIsSpace x = false) : pyStrip l = l := by
  unfold pyStrip
  rw [dropWhile_eq_self_of_head pyIsSpace l hh]
  have : l.reverse.dropWhile pyIsSpace = l.reverse := by
    refine dropWhile_eq_self_of_head pyIsSpace l.reverse ?_
    intro x hx
    rw [List.head?_reverse] at hx
    exact hl x hx
  rw [this, List.reverse_reverse]

theorem collapseAux_mem :
    ∀ (b : Bool) (l : List Char) (c : Char), c ∈ collapseAux b l → c = ' ' ∨ c ∈ l
  | _, [], c, hc => by simp [collapseAux] at hc
  | b, d :: ds, c, hc => by
    unfold collapseAux at hc
    by_cases hd : pyIsSpace d
    · rw [if_pos hd] at hc
      by_cases hb : b
      · rw [if_pos hb] at hc
        rcases collapseAux_mem true ds c hc with h | h
        · exact Or.inl h
        · exact Or.inr (List.mem_cons_of_mem _ h)
      · rw [if_neg hb] at hc
        rcases List.mem_cons.mp hc with rfl | hc'
        · exact Or.inl rfl
        · rcases collapseAux_mem true ds c hc' with h | h
          · exact Or.inl h
          · exact Or.inr (List.mem_cons_of_mem _ h)
    · rw [if_neg hd] at hc
      rcases List.mem_cons.mp hc with rfl | hc'
      · exact Or.inr (List.mem_cons_self _ _)
      · rcases collapseAux_mem false ds c hc' with h | h
        · exact Or.inl h
        · exact Or.inr (List.mem_cons_of_mem _ h)

theorem collapseAux_space_eq_blank :
    ∀ (b : Bool) (l : List Char) (c : Char), c ∈ collapseAux b l → pyIsSpace c = true → c = ' '
  | _, [], c, hc, _ => by simp [collapseAux] at hc
  | b, d :: ds, c, hc, hs => by
    unfold collapseAux at hc
    by_cases hd : pyIsSpace d
    · rw [if_pos hd] at hc
      by_cases hb : b
      · rw [if_pos hb] at hc
        exact collapseAux_space_eq_blank true ds c hc hs
      · rw [if_neg hb] at hc
        rcases List.mem_cons.mp hc with rfl | hc'
        · rfl
        · exact collapseAux_space_eq_blank true ds c hc' hs
    · rw [if_neg hd] at hc
      rcases List.mem_cons.mp hc with rfl | hc'
      · exact absurd hs (by simp [hd])
      · exact collapseAux_space_eq_blank false ds c hc' hs

theorem collapseAux_true_head :
    ∀ (l : List Char) (h : Char), (collapseAux true l).head? = some h → pyIsSpace h = false
  | [], h, hh => by simp [collapseAux] at hh
  | c :: cs, h, hh => by
    unfold collapseAux at hh
    by_cases hc : pyIsSpace c
    · rw [if_pos hc, if_pos rfl] at hh
      exact collapseAux_true_head cs h hh
    · rw [if_neg hc] at hh
      simp only [List.head?_cons, Option.some.injEq] at hh
      rw [← hh]
      exact Bool.eq_false_iff.mpr hc

theorem collapseAux_chain :
    ∀ (b : Bool) (l : List Char), (collapseAux b l).Chain' noAdjSpace
  | _, [] => List.chain'_nil
  | b, c :: cs => by
    unfold collapseAux
    by_cases hc : pyIsSpace c
    · rw [if_pos hc]
      by_cases hb : b
      · rw [if_pos hb]
        exact collapseAux_chain true cs
      · rw [if_neg hb]
        refine List.chain'_cons'.mpr ⟨?_, collapseAux_chain true cs⟩
        intro y hy
        have := collapseAux_true_head cs y hy
        intro hand
        rw [this] at hand
        exact Bool.false_ne_true hand.2
    · rw [if_neg hc]
      refine List.chain'_cons'.mpr ⟨?_, collapseAux_chain false cs⟩
      intro y _
      intro hand
      rw [Bool.eq_false_iff.mpr hc] at hand
      exact Bool.false_ne_true hand.1

theorem pyStrip_mem (l : List Char) {c : Char} (hc : c ∈ pyStrip l) : c ∈ l := by
  obtain ⟨t, ht⟩ := pyStrip_append l
  have h1 : c ∈ l.dropWhile pyIsSpace := by
    rw [← ht]
    exact List.mem_append_left t hc
  exact (List.dropWhile_sublist pyIsSpace).subset h1

theorem collapseAux_eq_self :
    ∀ (l : List Char), l.Chain' noAdjSpace → (∀ c ∈ l, pyIsSpace c = true → c = ' ') →
      ∀ b : Bool, (b = true → ∀ h, l.head? = some h → pyIsSpace h = false) →
        collapseAux b l = l
  | [], _, _, _, _ => rfl
  | c :: cs, hch, hsp, b, hb => by
    unfold collapseAux
    by_cases hc : pyIsSpace c
    · have hcb : c = ' ' := hsp c (List.mem_cons_self _ _) hc
      have hbf : b = false := by
        cases b with
        | false => rfl
        | true => exact absurd (hb rfl c rfl) (by simp [hc])
      subst hbf
      rw [if_pos hc, if_neg Bool.false_ne_true, hcb]
      congr 1
      refine collapseAux_eq_self cs (List.Chain'.tail hch) ?_ true ?_
      · intro x hx hxs
        exact hsp x (List.mem_cons_of_mem _ hx) hxs
      · intro _ h hh
        cases cs with
        | nil => simp at hh
        | cons d ds =>
          simp only [List.head?_cons, Option.some.injEq] at hh
          have hr := List.chain'_cons.mp hch
          rw [hh] at hr
          by_contra hcon
          rw [Bool.not_eq_false] at hcon
          exact hr.1 ⟨hc, hcon⟩
    · rw [if_neg hc]
      congr 1
      refine collapseAux_eq_self cs (List.Chain'.tail hch) ?_ false ?_
      · intro x hx hxs
        exact hsp x (List.mem_cons_of_mem _ hx) hxs
      · intro hcon
        exact absurd hcon Bool.false_ne_true

theorem collapseAux_last :
    ∀ (l : List Char) (d : Char), l.getLast? = some d → pyIsSpace d = false →
      ∀ b : Bool, ∃ h, (collapseAux b l).getLast? = some h ∧ pyIsSpace h = false
  | [], d, hd, _, _ => by simp at hd
  | [c], d, hd, hds, b => by
    have hcd : d = c := by simpa using hd.symm
    have hcs : pyIsSpace c = false := by rw [← hcd]; exact hds
    refine ⟨c, ?_, hcs⟩
    unfold collapseAux
    rw [if_neg (by simp [hcs])]
    rfl
  | c :: c2 :: cs, d, hd, hds, b => by
    rw [List.getLast?_cons_cons] at hd
    unfold collapseAux
    by_cases hc : pyIsSpace c
    · rw [if_pos hc]
      by_cases hb : b
      · rw [if_pos hb]
        exact collapseAux_last (c2 :: cs) d hd hds true
      · rw [if_neg hb]
        obtain ⟨h, hh, hhs⟩ := collapseAux_last (c2 :: cs) d hd hds true
        refine ⟨h, ?_, hhs⟩
        cases hcc : collapseAux true (c2 :: cs) with
        | nil => rw [hcc] at hh; simp at hh
        | cons e es =>
          rw [hcc] at hh
          rw [List.getLast?_cons_cons]
          exact hh
    · rw [if_neg hc]
      obtain ⟨h, hh, hhs⟩ := collapseAux_last (c2 :: cs) d hd hds false
      refine ⟨h, ?_, hhs⟩
      cases hcc : collapseAux false (c2 :: cs) with
      | nil => rw [hcc] at hh; simp at hh
      | cons e es =>
        rw [hcc] at hh
        rw [List.getLast?_cons_cons]
        exact hh

theorem collapseWS_head (l : List Char)
    (hh : ∀ x, l.head? = some x → pyIsSpace x = false) :
    ∀ h, (collapseWS l).head? = some h → pyIsSpace h = false := by
  intro h h2
  cases l with
  | nil => simp [collapseWS, collapseAux] at h2
  | cons c cs =>
    have hc : pyIsSpace c = false := hh c rfl
    unfold collapseWS collapseAux at h2
    rw [if_neg (by simp [hc])] at h2
    simp only [List.head?_cons, Option.some.injEq] at h2
    rw [← h2]
    exact hc

theorem replaceSpecialChar_eq_self {c : Char} (h : c.toNat < 128) :
    replaceSpecialChar c = c := by
  have h1 : c ≠ curlyOpen := by rintro rfl; revert h; decide
  have h2 : c ≠ curlyClose := by rintro rfl; revert h; decide
  have h3 : c ≠ enDash := by rintro rfl; revert h; decide
  have h4 : c ≠ emDash := by rintro rfl; revert h; decide
  unfold replaceSpecialChar
  rw [if_neg (by simp [h1, h2]), if_neg (by simp [h3, h4])]

theorem expandQuotes_eq_self :
    ∀ l : List Char, (∀ c ∈ l, c ≠ quoteChar) → expandQuotes l = l
  | [], _ => rfl
  | c :: cs, h => by
    unfold expandQuotes
    rw [if_neg (h c (List.mem_cons_self _ _))]
    congr 1
    exact expandQuotes_eq_self cs (fun x hx => h x (List.mem_cons_of_mem _ hx))

theorem normalizeStr_eq_collapse (s : String) (hg : ∀ c ∈ s.data, goodChar c = true) :
    normalizeStr s = String.mk (collapseWS (pyStrip s.data)) := by
  have hmem : ∀ c ∈ collapseWS (pyStrip s.data), c = ' ' ∨ c ∈ s.data := by
    intro c hc
    rcases collapseAux_mem false _ c hc with h | h
    · exact Or.inl h
    · exact Or.inr (pyStrip_mem s.data h)
  have hgood : ∀ c ∈ collapseWS (pyStrip s.data), goodChar c = true := by
    intro c hc
    rcases hmem c hc with rfl | h
    · decide
    · exact hg c h
  have hmap : (collapseWS (pyStrip s.data)).map replaceSpecialChar =
      collapseWS (pyStrip s.data) := by
    have : ∀ c ∈ collapseWS (pyStrip s.data), replaceSpecialChar c = id c := by
      intro c hc
      have := hgood c hc
      unfold goodChar at this
      simp only [Bool.and_eq_true, decide_eq_true_eq] at this
      exact replaceSpecialChar_eq_self this.1.1
    rw [List.map_congr_left this, List.map_id]
  have hfil : (collapseWS (pyStrip s.data)).filter pyIsPrintable =
      collapseWS (pyStrip s.data) := by
    rw [List.filter_eq_self]
    intro c hc
    have hgc := hgood c hc
    unfold goodChar at hgc
    simp only [Bool.and_eq_true, Bool.or_eq_true, decide_eq_true_eq] at hgc
    rcases hgc.1.2 with h | h
    · exact h
    · rw [collapseAux_space_eq_blank false _ c hc h]
      decide
  have hquo : expandQuotes (collapseWS (pyStrip s.data)) = collapseWS (pyStrip s.data) := by
    refine expandQuotes_eq_self _ ?_
    intro c hc
    have hgc := hgood c hc
    unfold goodChar at hgc
    simp only [Bool.and_eq_true, Bool.not_eq_eq_eq_not, Bool.not_true, beq_eq_false_iff_ne,
      ne_eq] at hgc
    exact hgc.2
  unfold normalizeStr
  rw [hmap, hfil, hquo]

theorem normalizeStr_idem (s : String) (hg : ∀ c ∈ s.data, goodChar c = true) :
    normalizeStr (normalizeStr s) = normalizeStr s := by
  have h1 : normalizeStr s = String.mk (collapseWS (pyStrip s.data)) :=
    normalizeStr_eq_collapse s hg
  have hgood : ∀ c ∈ collapseWS (pyStrip s.data), goodChar c = true := by
    intro c hc
    rcases collapseAux_mem false _ c hc with rfl | h
    · decide
    · exact hg c (pyStrip_mem s.data h)
  have h2 : normalizeStr (String.mk (collapseWS (pyStrip s.data))) =
      String.mk (collapseWS (pyStrip (collapseWS (pyStrip s.data)))) :=
    normalizeStr_eq_collapse _ hgood
  have hstrip : pyStrip (collapseWS (pyStrip s.data)) = collapseWS (pyStrip s.data) := by
    refine pyStrip_eq_self _ ?_ ?_
    · exact collapseWS_head _ (pyStrip_head s.data)
    · intro x hx
      cases hsd : (pyStrip s.data).getLast? with
      | none =>
        rw [List.getLast?_eq_none_iff] at hsd
        rw [hsd] at hx
        simp [collapseWS, collapseAux] at hx
      | some d =>
        have hds : pyIsSpace d = false := pyStrip_last s.data d hsd
        obtain ⟨h, hh, hhs⟩ := collapseAux_last _ d hsd hds false
        unfold collapseWS at hx
        rw [hx] at hh
        rw [Option.some.injEq] at hh
        rw [hh]
        exact hhs
  have hcoll : collapseWS (collapseWS (pyStrip s.data)) = collapseWS (pyStrip s.data) := by
    refine collapseAux_eq_self _ (collapseAux_chain false _) ?_ false ?_
    · intro c hc hcs
      exact collapseAux_space_eq_blank false _ c hc hcs
    · intro hcon
      exact absurd hcon Bool.false_ne_true
  rw [h1, h2, hstrip]
  exact congrArg String.mk hcoll

theorem statusIs_of_normalized (a : ARecord) (b : ARecord) (std : String)
    (hst : a.status = normalize_status_col b.status)
    (hne : normalize_status_col b.status ≠ Value.str std)
    (hstd : std = "addition" ∨ std = "changed" ∨ std = "deletion") :
    statusIs std a = false := by
  rcases normalize_status_col_cases b.status with hc | hc | hc | hc
  · exact statusIs_false_of_null std a (hst.trans hc)
  all_goals
    rw [hc] at hst hne
    unfold statusIs
    rw [hst]
    rcases hstd with rfl | rfl | rfl
    all_goals first
      | (exact absurd rfl hne)
      | with_unfolding_all decide

theorem toAdd_eq_nil_of_not_addition (rows : List ARecord)
    (h : ∀ a ∈ rows, normalize_status_col a.status ≠ Value.str "addition") :
    toAdd rows = [] := by
  unfold toAdd
  rw [List.filter_eq_nil_iff]
  intro a ha
  obtain ⟨b, hb, _, hstat, _⟩ := cleanAddendum_source rows a ha
  simp [statusIs_of_normalized a b "addition" hstat (h b hb) (Or.inl rfl)]

theorem toChange_eq_nil_of_not_changed (rows : List ARecord)
    (h : ∀ a ∈ rows, normalize_status_col a.status ≠ Value.str "changed") :
    toChange rows = [] := by
  unfold toChange
  rw [List.filter_eq_nil_iff]
  intro a ha
  obtain ⟨b, hb, _, hstat, _⟩ := cleanAddendum_source rows a ha
  simp [statusIs_of_normalized a b "changed" hstat (h b hb) (Or.inr (Or.inl rfl))]

theorem first_name_ne_null_of_nonNullRequired {r : Record}
    (h : nonNullRequired r = true) : r.first_name ≠ Value.null := by
  unfold nonNullRequired at h
  simp only [Bool.and_eq_true, Bool.not_eq_eq_eq_not, Bool.not_true, beq_eq_false_iff_ne,
    ne_eq] at h
  exact h.1.1.1.1.1.2

theorem dedup_of_dedup (base : List Record) :
    (deduplicate_with_salary_resolution (deduplicate_with_salary_resolution base).1).1 =
      (deduplicate_with_salary_resolution base).1 := by
  unfold deduplicate_with_salary_resolution
  rw [deduplicate_fix]

theorem reconcile_unresolvable (base : List Record) (rows : List ARecord)
    (h : ∀ a ∈ rows, normalize_status_col a.status = Value.null) :
    (reconcile base (AddendumInput.withStatus rows)).1 =
      (deduplicate_with_salary_resolution base).1 := by
  have hA := toAdd_eq_nil_of_unresolvable rows h
  have hC := toChange_eq_nil_of_unresolvable rows h
  have hD := toDelete_eq_nil_of_unresolvable rows h
  rw [reconcile_merged_of_no_add_change base rows hA hC, hD, afterDeletions_nil]
  exact dedup_of_dedup base

theorem changeStep_counts (st : ChangeState) (c : ARecord) :
    (changeStep st c).skipped + (changeStep st c).needed.length =
      st.skipped + st.needed.length + 1 := by
  unfold changeStep
  by_cases h1 : (st.salary.filter (fun r => match_key r == match_key c.row)).isEmpty
  · simp [h1]
    omega
  · rw [if_neg (by simp [h1])]
    by_cases h2 : (st.salary.filter (fun r => match_key r == match_key c.row)).any
        (fun r => compare_rows c.row r)
    · simp [h2]
      omega
    · rw [if_neg (by simp [h2])]
      simp
      omega

theorem foldl_changeStep_counts :
    ∀ (cs : List ARecord) (st : ChangeState),
      (cs.foldl changeStep st).skipped + (cs.foldl changeStep st).needed.length =
        st.skipped + st.needed.length + cs.length
  | [], st => by simp
  | c :: cs, st => by
    have h1 := foldl_changeStep_counts cs (changeStep st c)
    have h2 := changeStep_counts st c
    simp only [List.foldl_cons, List.length_cons]
    omega

theorem runChanges_counts (afterDel : List Record) (tChg : List ARecord) :
    (runChanges afterDel tChg).skipped + (runChanges afterDel tChg).needed.length =
      tChg.length := by
  unfold runChanges
  by_cases h : tChg.isEmpty
  · rw [if_pos h]
    rw [List.isEmpty_iff] at h
    simp [h]
  · rw [if_neg h]
    have := foldl_changeStep_counts tChg { salary := afterDel, skipped := 0, needed := [] }
    simpa using this

/-! ## Claim C5: normalizer idempotence -/


/-- Claim C5 is refuted: the normalizer supplied to the core is not
idempotent.  On the one-character string consisting of a double-quote, the
final `replace` step of `normalize_text` doubles the quote on every
application, so a second application changes the result again; and deleting
a non-printable character that sits between two spaces creates a new
multi-space run that only the next application collapses. -/
theorem claim_C5_counterexample :
    normalize_text (normalize_text (some (String.mk [quoteChar]))) ≠
      normalize_text (some (String.mk [quoteChar])) ∧
    normalize_text (normalize_text (some (String.mk ['a', ' ', Char.ofNat 0, ' ', 'b']))) ≠
      normalize_text (some (String.mk ['a', ' ', Char.ofNat 0, ' ', 'b'])) := by
  refine ⟨?_, ?_⟩ <;> with_unfolding_all decide

/-- Claim C5 (amended): `normalize(normalize(x)) == normalize(x)` holds for
null and for every string whose characters are ASCII, printable or
whitespace, and not the double-quote; the quote-doubling step (and
space runs created by deleting non-printable characters) are the only
obstructions to idempotence. -/
theorem claim_C5_idempotent_amended (x : Option String)
    (h : ∀ c ∈ (x.getD "").data, goodChar c = true) :
    normalize_text (normalize_text x) = normalize_text x := by
  cases x with
  | none => rfl
  | some s =>
    show some (normalizeStr (normalizeStr s)) = some (normalizeStr s)
    rw [normalizeStr_idem s h]

/-- Witness for the amended claim C5 at a concrete messy input. -/
theorem claim_C5_witness :
    (∀ c ∈ ((some "  Jane   Doe " : Option String).getD "").data, goodChar c = true) ∧
    normalize_text (normalize_text (some "  Jane   Doe ")) =
      normalize_text (some "  Jane   Doe ") :=
  ⟨by with_unfolding_all decide,
   claim_C5_idempotent_amended (some "  Jane   Doe ") (by with_unfolding_all decide)⟩

/-! ## Claim C7: dedup tie-break correctness -/

/-- Claim C7 is refuted as stated: when every member of a duplicated group
has a null grouping-key component (here a missing `first_name`), pandas
`groupby` never sees the group, the salary-resolution branch is not taken,
and both members survive — so a kept record can have a strictly smaller
total compensation than another member of its group. -/
theorem claim_C7_counterexample :
    exNullFirst 50 ∈ (deduplicate_with_salary_resolution [exNullFirst 50, exNullFirst 60]).1 ∧
    exNullFirst 60 ∈ [exNullFirst 50, exNullFirst 60] ∧
    groupKey (exNullFirst 60) = groupKey (exNullFirst 50) ∧
    ¬ (totalComp (exNullFirst 60) ≤ totalComp (exNullFirst 50)) := by
  with_unfolding_all decide

/-- Claim C7 (amended): for every record kept by the deduplicator whose
grouping key has no null component, its total compensation is at least that
of every input record sharing the grouping key. -/
theorem claim_C7_tiebreak_amended (rows : List Record) (r s : Record)
    (hr : r ∈ (deduplicate_with_salary_resolution rows).1) (hs : s ∈ rows)
    (hk : groupKey s = groupKey r) (hnn : nonNullKey (groupKey r) = true) :
    totalComp s ≤ totalComp r :=
  deduplicate_max groupKey totalComp rows r hr s hs hk hnn

/-- Witness for the amended claim C7 on inputs of the shape of the spec's
Scenario A (scaled-down salaries). -/
theorem claim_C7_witness :
    exJane "A" 52 ∈
      (deduplicate_with_salary_resolution [exJane "A" 50, exJane "A" 52]).1 ∧
    exJane "A" 50 ∈ [exJane "A" 50, exJane "A" 52] ∧
    groupKey (exJane "A" 50) = groupKey (exJane "A" 52) ∧
    nonNullKey (groupKey (exJane "A" 52)) = true ∧
    totalComp (exJane "A" 50) ≤ totalComp (exJane "A" 52) :=
  ⟨by with_unfolding_all decide, by with_unfolding_all decide, by with_unfolding_all decide,
   by with_unfolding_all decide,
   claim_C7_tiebreak_amended [exJane "A" 50, exJane "A" 52] _ _
     (by with_unfolding_all decide) (by with_unfolding_all decide)
     (by with_unfolding_all decide) (by with_unfolding_all decide)⟩

/-! ## Claim C9: dedup totality -/

/-- Claim C9 is confirmed: the deduplicator is a pure total transformation —
in the embedding it is a total function whose output rows all come from the
input, and the numeric coercion sends the missing value and every
unparsable string to 0 instead of failing; `total_comp` is exactly the sum
of the two coerced cells. -/
theorem claim_C9_dedup_total (rows : List Record) :
    (∀ r ∈ (deduplicate_with_salary_resolution rows).1, r ∈ rows) ∧
    coerceNum Value.null = 0 ∧
    (∀ s : String, parseRatStr s = none → coerceNum (Value.str s) = 0) ∧
    (∀ r : Record, totalComp r = coerceNum r.salary_paid + coerceNum r.taxable_benefits) := by
  refine ⟨deduplicate_subset groupKey totalComp rows, rfl, ?_, fun r => rfl⟩
  intro s hs
  show (parseRatStr s).getD 0 = 0
  rw [hs]
  rfl

/-- Witness for claim C9 on a record with a malformed salary cell and a
missing benefits cell. -/
theorem claim_C9_witness :
    exBadNum ∈ [exBadNum] ∧ parseRatStr "N/A" = none ∧ coerceNum (Value.str "N/A") = 0 :=
  ⟨(claim_C9_dedup_total [exBadNum]).1 exBadNum (by with_unfolding_all decide),
   by with_unfolding_all decide,
   (claim_C9_dedup_total [exBadNum]).2.2.1 "N/A" (by with_unfolding_all decide)⟩

/-! ## Claim C1: deletion completeness -/

/-- Claim C1 is refuted as stated: a deletion removes only base rows, so an
addendum addition or change carrying the same match key under a different
sector reintroduces the deleted identity into the merged output.  In the
first scenario the base row (sector "A") is deleted but the addition
(sector "B") survives the addendum-side dedup (the grouping key includes
`sector`) and is merged, and its match key (which excludes `sector`) equals
the deleted one; in the second scenario a change row does the same (after
the deletion it finds no match and is staged as an insertion). -/
theorem claim_C1_counterexample :
    ((⟨exJane "A" 100, Value.str "deletion"⟩ : ARecord) ∈
      toDelete [⟨exJane "A" 100, Value.str "deletion"⟩, ⟨exJane "B" 50, Value.str "addition"⟩] ∧
    ∃ r ∈ (reconcile [exJane "A" 100]
        (AddendumInput.withStatus
          [⟨exJane "A" 100, Value.str "deletion"⟩, ⟨exJane "B" 50, Value.str "addition"⟩])).1,
      match_key r = match_key (exJane "A" 100)) ∧
    ((⟨exJane "A" 100, Value.str "deletion"⟩ : ARecord) ∈
      toDelete [⟨exJane "A" 100, Value.str "deletion"⟩, ⟨exJane "B" 50, Value.str "changed"⟩] ∧
    ∃ r ∈ (reconcile [exJane "A" 100]
        (AddendumInput.withStatus
          [⟨exJane "A" 100, Value.str "deletion"⟩, ⟨exJane "B" 50, Value.str "changed"⟩])).1,
      match_key r = match_key (exJane "A" 100)) := by
  refine ⟨?_, ?_⟩ <;> with_unfolding_all decide

/-- Claim C1 (amended): deletion completeness holds provided no addition row
and no change row of the addendum shares the deleted record's match key —
for every such `to_delete` record, no record with its match key is present
in the merged output. -/
theorem claim_C1_deletion_amended (base : List Record) (rows : List ARecord) (d : ARecord)
    (hd : d ∈ toDelete rows)
    (hA : ∀ x ∈ toAdd rows, match_key x.row ≠ match_key d.row)
    (hC : ∀ x ∈ toChange rows, match_key x.row ≠ match_key d.row) :
    ∀ r ∈ (reconcile base (AddendumInput.withStatus rows)).1,
      match_key r ≠ match_key d.row := by
  intro r hr hceq
  rcases reconcile_mem_cases base rows r hr with ⟨_, hdel⟩ | ⟨a, ha, rfl⟩ | ⟨a, ha, rfl⟩
  · exact hdel d hd hceq.symm
  · exact hC a ha hceq
  · exact hA a ha hceq

/-- Witness for the amended claim C1: a pure deletion really removes the
identity from the merged output. -/
theorem claim_C1_witness :
    (⟨exJane "A" 100, Value.str "deletion"⟩ : ARecord) ∈
      toDelete [⟨exJane "A" 100, Value.str "deletion"⟩] ∧
    ∀ r ∈ (reconcile [exJane "A" 100]
        (AddendumInput.withStatus [⟨exJane "A" 100, Value.str "deletion"⟩])).1,
      match_key r ≠ match_key (exJane "A" 100) :=
  ⟨by with_unfolding_all decide,
   claim_C1_deletion_amended [exJane "A" 100] [⟨exJane "A" 100, Value.str "deletion"⟩]
     ⟨exJane "A" 100, Value.str "deletion"⟩
     (by with_unfolding_all decide)
     (by with_unfolding_all decide)
     (by with_unfolding_all decide)⟩

/-! ## Claim C2: addition presence -/

/-- Claim C2 is refuted as stated: an added record's match key can appear
twice in the merged output, because the final dedup groups on the raw
columns including `sector` while the match key normalizes text and excludes
`sector` — a base row with a different sector but the same identity text
survives alongside the added row. -/
theorem claim_C2_counterexample :
    (⟨exJane "A" 50, Value.str "addition"⟩ : ARecord) ∈
      toAdd [⟨exJane "A" 50, Value.str "addition"⟩] ∧
    ((reconcile [exJane "B" 100]
        (AddendumInput.withStatus [⟨exJane "A" 50, Value.str "addition"⟩])).1.filter
      (fun r => match_key r == match_key (exJane "A" 50))).length = 2 ∧
    ¬ ((reconcile [exJane "B" 100]
        (AddendumInput.withStatus [⟨exJane "A" 50, Value.str "addition"⟩])).1.filter
      (fun r => match_key r == match_key (exJane "A" 50))).length = 1 := by
  with_unfolding_all decide

/-- Claim C2 (amended): every record of the `to_add` partition has its match
key present in the merged output at least once (the "exactly once" part of
the claim fails; presence is guaranteed because additions are concatenated
unconditionally and the final dedup keeps one row per grouping key, and
equal grouping keys force equal match keys). -/
theorem claim_C2_addition_amended (base : List Record) (rows : List ARecord) (a : ARecord)
    (ha : a ∈ toAdd rows) :
    ∃ r ∈ (reconcile base (AddendumInput.withStatus rows)).1,
      match_key r = match_key a.row := by
  have hne : (toAdd rows).isEmpty = false := by
    cases h : (toAdd rows).isEmpty
    · rfl
    · rw [List.isEmpty_iff] at h
      rw [h] at ha
      exact absurd ha (List.not_mem_nil a)
  have hmem : a.row ∈ stagedResult
      (runChanges
        (afterDeletions (deduplicate_with_salary_resolution base).1 (toDelete rows))
        (toChange rows))
      (toAdd rows) := by
    unfold stagedResult
    rw [if_neg (by simp [hne])]
    exact List.mem_append_right _ (List.mem_map_of_mem _ ha)
  rw [reconcile_withStatus_merged]
  obtain ⟨y, hy, hky⟩ := deduplicate_rep groupKey totalComp _ a.row hmem
  exact ⟨y, hy, match_key_eq_of_groupKey_eq hky⟩

/-- Witness for the amended claim C2: an added identity is present in the
merged output. -/
theorem claim_C2_witness :
    (⟨exJane "A" 50, Value.str "addition"⟩ : ARecord) ∈
      toAdd [⟨exJane "A" 50, Value.str "addition"⟩] ∧
    ∃ r ∈ (reconcile [exJane "B" 100]
        (AddendumInput.withStatus [⟨exJane "A" 50, Value.str "addition"⟩])).1,
      match_key r = match_key (exJane "A" 50) :=
  ⟨by with_unfolding_all decide,
   claim_C2_addition_amended [exJane "B" 100] [⟨exJane "A" 50, Value.str "addition"⟩]
     ⟨exJane "A" 50, Value.str "addition"⟩ (by with_unfolding_all decide)⟩

/-! ## Claim C3: post-dedup invariant -/

/-- Claim C3 is refuted as stated: the merged output can contain two
distinct records with equal match keys, because the dedup grouping key
includes the raw `sector` while the match key excludes it — two base rows
differing only in sector both survive and share a match key.  The second
scenario shows the null obstruction too: two rows with a missing
`first_name` and equal grouping keys both survive (pandas `groupby` never
forms their group), so even equal raw grouping keys can recur in merged
when a key component is null. -/
theorem claim_C3_counterexample :
    ((reconcile [exJane "A" 100, exJane "B" 100] AddendumInput.absent).1.Nodup ∧
    ¬ ((reconcile [exJane "A" 100, exJane "B" 100] AddendumInput.absent).1.map
        match_key).Nodup) ∧
    ((reconcile [exNullFirst 50, exNullFirst 60] AddendumInput.absent).1.Nodup ∧
    ¬ ((reconcile [exNullFirst 50, exNullFirst 60] AddendumInput.absent).1.map
        groupKey).Nodup) := by
  refine ⟨?_, ?_⟩ <;> with_unfolding_all decide

/-- Claim C3 (amended): the merged output never contains two distinct
records with equal dedup grouping keys all of whose components are
non-null: the output is duplicate-free, and each fully non-null grouping
key (the raw sector, name, employer, title and year columns) occurs at most
once.  (With the match key — normalized, sector-free — or with null key
components, the invariant fails, per the counterexample.) -/
theorem claim_C3_invariant_amended (base : List Record) (add : AddendumInput) :
    (reconcile base add).1.Nodup ∧
    ∀ k, nonNullKey k = true →
      ((reconcile base add).1.filter (fun r => groupKey r == k)).length ≤ 1 := by
  cases add with
  | absent =>
    exact ⟨deduplicate_nodup groupKey totalComp base,
      fun k hk => deduplicate_nonnull_unique groupKey totalComp base k hk⟩
  | noStatusCol rows =>
    exact ⟨deduplicate_nodup groupKey totalComp base,
      fun k hk => deduplicate_nonnull_unique groupKey totalComp base k hk⟩
  | withStatus rows =>
    rw [reconcile_withStatus_merged]
    exact ⟨deduplicate_nodup groupKey totalComp _,
      fun k hk => deduplicate_nonnull_unique groupKey totalComp _ k hk⟩

/-- Witness for the amended claim C3 at a concrete key. -/
theorem claim_C3_witness :
    nonNullKey (groupKey (exJane "A" 100)) = true ∧
    ((reconcile [exJane "A" 100, exJane "B" 100] AddendumInput.absent).1.filter
      (fun r => groupKey r == groupKey (exJane "A" 100))).length ≤ 1 :=
  ⟨by with_unfolding_all decide,
   (claim_C3_invariant_amended [exJane "A" 100, exJane "B" 100] AddendumInput.absent).2
     (groupKey (exJane "A" 100)) (by with_unfolding_all decide)⟩

/-! ## Claim C6: change operation semantics -/

/-- Claim C6 is confirmed: one iteration of the change loop behaves exactly
as specified.  (1) If some current base row sharing the change row's match
key is cell-identical on the seven compare columns, the change is a no-op:
the skip counter (`changes_skipped`) increments and the base rows for that
key are untouched.  (2) If rows share the key but none is identical, all of
them are removed and the change row is staged for insertion (the staged
list, whose length the reconciler reports as `changes_applied`, grows by
one).  (3) If no row shares the key, the change row is staged as a new
insertion and likewise counted.  (4) Over the whole loop, every change row
is counted exactly once: `changes_skipped + changes_applied` equals the
number of `to_change` rows. -/
theorem claim_C6_change_semantics (st : ChangeState) (c : ARecord) :
    (st.salary.filter (fun r => match_key r == match_key c.row) ≠ [] →
      (st.salary.filter (fun r => match_key r == match_key c.row)).any
        (fun r => compare_rows c.row r) = true →
      changeStep st c =
        { salary := st.salary, skipped := st.skipped + 1, needed := st.needed }) ∧
    (st.salary.filter (fun r => match_key r == match_key c.row) ≠ [] →
      (st.salary.filter (fun r => match_key r == match_key c.row)).any
        (fun r => compare_rows c.row r) = false →
      changeStep st c =
        { salary := st.salary.filter (fun r => !(match_key r == match_key c.row)),
          skipped := st.skipped, needed := st.needed ++ [c] }) ∧
    (st.salary.filter (fun r => match_key r == match_key c.row) = [] →
      changeStep st c =
        { salary := st.salary, skipped := st.skipped, needed := st.needed ++ [c] }) ∧
    (∀ (afterDel : List Record) (tChg : List ARecord),
      (runChanges afterDel tChg).skipped + (runChanges afterDel tChg).needed.length =
        tChg.length) := by
  refine ⟨?_, ?_, ?_, fun afterDel tChg => runChanges_counts afterDel tChg⟩
  · intro h1 h2
    have he : (st.salary.filter (fun r => match_key r == match_key c.row)).isEmpty = false := by
      simp [List.isEmpty_iff, h1]
    unfold changeStep
    simp [he, h2]
  · intro h1 h2
    have he : (st.salary.filter (fun r => match_key r == match_key c.row)).isEmpty = false := by
      simp [List.isEmpty_iff, h1]
    unfold changeStep
    simp [he, h2]
  · intro h1
    have he : (st.salary.filter (fun r => match_key r == match_key c.row)).isEmpty = true := by
      simp [List.isEmpty_iff, h1]
    unfold changeStep
    simp [he]

/-- Witness for claim C6: a change with a key-matching but not identical
base row removes the old row and stages the new one. -/
theorem claim_C6_witness :
    ([exJane "A" 100].filter
        (fun r => match_key r == match_key (exJane "B" 50)) ≠ []) ∧
    (([exJane "A" 100].filter (fun r => match_key r == match_key (exJane "B" 50))).any
        (fun r => compare_rows (exJane "B" 50) r) = false) ∧
    changeStep { salary := [exJane "A" 100], skipped := 0, needed := [] }
        ⟨exJane "B" 50, Value.str "changed"⟩ =
      { salary := [exJane "A" 100].filter
          (fun r => !(match_key r == match_key (exJane "B" 50))),
        skipped := 0, needed := [] ++ [⟨exJane "B" 50, Value.str "changed"⟩] } :=
  ⟨by with_unfolding_all decide, by with_unfolding_all decide,
   (claim_C6_change_semantics
      { salary := [exJane "A" 100], skipped := 0, needed := [] }
      ⟨exJane "B" 50, Value.str "changed"⟩).2.1
     (by with_unfolding_all decide) (by with_unfolding_all decide)⟩

/-! ## Claim C8: pass-through mode -/

/-- Claim C8 is confirmed: when the addendum is absent, lacks a status
column, is empty, or has no row whose status resolves, the reconciler is not
an error — the merged output is exactly the deduplicated base, with nothing
added, removed beyond deduplication, or modified. -/
theorem claim_C8_passthrough (base : List Record) (rowsR : List Record) (rowsA : List ARecord) :
    (reconcile base AddendumInput.absent).1 = (deduplicate_with_salary_resolution base).1 ∧
    (reconcile base (AddendumInput.noStatusCol rowsR)).1 =
      (deduplicate_with_salary_resolution base).1 ∧
    (reconcile base (AddendumInput.withStatus [])).1 =
      (deduplicate_with_salary_resolution base).1 ∧
    ((∀ a ∈ rowsA, normalize_status_col a.status = Value.null) →
      (reconcile base (AddendumInput.withStatus rowsA)).1 =
        (deduplicate_with_salary_resolution base).1) := by
  refine ⟨rfl, rfl, ?_, ?_⟩
  · exact reconcile_unresolvable base []
      (by intro a ha; exact absurd ha (List.not_mem_nil a))
  · exact reconcile_unresolvable base rowsA

/-- Witness for claim C8: an addendum whose single row has an unresolvable
status passes the (duplicated) base through, deduplicated. -/
theorem claim_C8_witness :
    (∀ a ∈ [(⟨exJane "A" 100, Value.str "bogus"⟩ : ARecord)],
        normalize_status_col a.status = Value.null) ∧
    (reconcile [exJane "A" 100, exJane "A" 100]
        (AddendumInput.withStatus [⟨exJane "A" 100, Value.str "bogus"⟩])).1 =
      (deduplicate_with_salary_resolution [exJane "A" 100, exJane "A" 100]).1 :=
  ⟨by with_unfolding_all decide,
   (claim_C8_passthrough [exJane "A" 100, exJane "A" 100] []
      [⟨exJane "A" 100, Value.str "bogus"⟩]).2.2.2
     (by with_unfolding_all decide)⟩

/-! ## Claim C10: null identity cells stringify to "nan" in the match key -/

/-- Claim C10 is confirmed: a present-but-null text identity cell is
stringified before normalization and contributes the literal "nan" (not the
empty string) to the match key; consequently records that are null in the
same identity field and agree (after stringified normalization) on the
other key fields receive equal match keys, and a deletion targeting that
key removes all of them from the merged output (the null-drop guarantees no
addendum insertion can itself carry a null identity cell). -/
theorem claim_C10_null_identity (base : List Record) (rows : List ARecord) :
    normalizeStr (pyStrOfValue Value.null) = "nan" ∧
    (∀ r1 r2 : Record,
      (r1.first_name = Value.null ∧ r2.first_name = Value.null ∨
        normalizeStr (pyStrOfValue r1.first_name) = normalizeStr (pyStrOfValue r2.first_name)) →
      (r1.last_name = Value.null ∧ r2.last_name = Value.null ∨
        normalizeStr (pyStrOfValue r1.last_name) = normalizeStr (pyStrOfValue r2.last_name)) →
      (r1.employer = Value.null ∧ r2.employer = Value.null ∨
        normalizeStr (pyStrOfValue r1.employer) = normalizeStr (pyStrOfValue r2.employer)) →
      (r1.job_title = Value.null ∧ r2.job_title = Value.null ∨
        normalizeStr (pyStrOfValue r1.job_title) = normalizeStr (pyStrOfValue r2.job_title)) →
      r1.calendar_year = r2.calendar_year →
      match_key r1 = match_key r2) ∧
    (∀ d ∈ toDelete rows, ∀ r1 : Record, match_key d.row = match_key r1 →
      r1.first_name = Value.null →
      r1 ∉ (reconcile base (AddendumInput.withStatus rows)).1) := by
  refine ⟨by with_unfolding_all decide, ?_, ?_⟩
  · intro r1 r2 h1 h2 h3 h4 h5
    have e1 : normalizeStr (pyStrOfValue r1.first_name) =
        normalizeStr (pyStrOfValue r2.first_name) := by
      rcases h1 with ⟨ha, hb⟩ | h
      · rw [ha, hb]
      · exact h
    have e2 : normalizeStr (pyStrOfValue r1.last_name) =
        normalizeStr (pyStrOfValue r2.last_name) := by
      rcases h2 with ⟨ha, hb⟩ | h
      · rw [ha, hb]
      · exact h
    have e3 : normalizeStr (pyStrOfValue r1.employer) =
        normalizeStr (pyStrOfValue r2.employer) := by
      rcases h3 with ⟨ha, hb⟩ | h
      · rw [ha, hb]
      · exact h
    have e4 : normalizeStr (pyStrOfValue r1.job_title) =
        normalizeStr (pyStrOfValue r2.job_title) := by
      rcases h4 with ⟨ha, hb⟩ | h
      · rw [ha, hb]
      · exact h
    unfold match_key
    rw [e1, e2, e3, e4, h5]
  · intro d hd r1 hK hnull hmem
    rcases reconcile_mem_cases base rows r1 hmem with ⟨_, hdel⟩ | ⟨a, ha, heq⟩ | ⟨a, ha, heq⟩
    · exact hdel d hd hK
    · obtain ⟨b, hb, hrow, hstat, hnn⟩ :=
        cleanAddendum_source rows a (toChange_subset_clean rows a ha)
      exact first_name_ne_null_of_nonNullRequired hnn (heq ▸ hnull)
    · obtain ⟨b, hb, hrow, hstat, hnn⟩ :=
        cleanAddendum_source rows a (toAdd_subset_clean rows a ha)
      exact first_name_ne_null_of_nonNullRequired hnn (heq ▸ hnull)

/-- Witness for claim C10: a deletion row whose `first_name` is the literal
string "nan" deletes the base record whose `first_name` is missing. -/
theorem claim_C10_witness :
    match_key (exNanFirst 40) = match_key (exNullFirst 50) ∧
    (⟨exNanFirst 40, Value.str "deletion"⟩ : ARecord) ∈
      toDelete [⟨exNanFirst 40, Value.str "deletion"⟩] ∧
    exNullFirst 50 ∉ (reconcile [exNullFirst 50]
        (AddendumInput.withStatus [⟨exNanFirst 40, Value.str "deletion"⟩])).1 :=
  ⟨by with_unfolding_all decide, by with_unfolding_all decide,
   (claim_C10_null_identity [exNullFirst 50] [⟨exNanFirst 40, Value.str "deletion"⟩]).2.2
     ⟨exNanFirst 40, Value.str "deletion"⟩ (by with_unfolding_all decide) (exNullFirst 50)
     (by with_unfolding_all decide) (by with_unfolding_all decide)⟩

/-! ## Claim C4: reconciliation idempotence -/

/-- Claim C4 is refuted: re-applying the same addendum can change the
merged result, and both change and addition operations can break
idempotence.  In the first scenario the change row (sector "B", salary
100) is skipped in the first pass because the base row (sector "A", salary
100) is cell-identical on the compare columns; but the final dedup then
discards that base row in favour of the higher-paid added row (sector "A",
salary 999) — on the second pass no identical row remains, the change
fires, and the merged multiset gains a record.  The second scenario uses
only additions: an added row with a null `calendar_year` is collapsed by
the first pass's final dedup (another, fully non-null duplicated group put
the dedup into its salary-resolution branch, and `drop_duplicates` treats
the null-keyed pair as equal), but on the second pass the duplicated group
is gone (its addition is now an exact duplicate), the branch is not taken,
and the re-added null-year row survives — the merged multiset grows. -/
theorem claim_C4_counterexample :
    (¬ ((reconcile (reconcile [exJane "A" 100]
          (AddendumInput.withStatus
            [⟨exJane "B" 100, Value.str "changed"⟩,
             ⟨exJane "A" 999, Value.str "addition"⟩])).1
        (AddendumInput.withStatus
          [⟨exJane "B" 100, Value.str "changed"⟩,
           ⟨exJane "A" 999, Value.str "addition"⟩])).1.Perm
      (reconcile [exJane "A" 100]
        (AddendumInput.withStatus
          [⟨exJane "B" 100, Value.str "changed"⟩,
           ⟨exJane "A" 999, Value.str "addition"⟩])).1)) ∧
    (¬ ((reconcile (reconcile [exJane "A" 500, exNullYear 50]
          (AddendumInput.withStatus
            [⟨exNullYear 40, Value.str "addition"⟩,
             ⟨exJane "A" 600, Value.str "addition"⟩])).1
        (AddendumInput.withStatus
          [⟨exNullYear 40, Value.str "addition"⟩,
           ⟨exJane "A" 600, Value.str "addition"⟩])).1.Perm
      (reconcile [exJane "A" 500, exNullYear 50]
        (AddendumInput.withStatus
          [⟨exNullYear 40, Value.str "addition"⟩,
           ⟨exJane "A" 600, Value.str "addition"⟩])).1)) := by
  refine ⟨?_, ?_⟩ <;> with_unfolding_all decide

/-- Claim C4 (amended): re-applying an addendum that contains no addition
and no change operation (only deletions and unresolvable rows) leaves the
merged result unchanged — in fact equal as a list, hence as a multiset.
(With additions or changes present, idempotence fails, per the
counterexample.) -/
theorem claim_C4_idempotent_amended (base : List Record) (rows : List ARecord)
    (h : ∀ a ∈ rows, normalize_status_col a.status ≠ Value.str "addition" ∧
         normalize_status_col a.status ≠ Value.str "changed") :
    (reconcile (reconcile base (AddendumInput.withStatus rows)).1
        (AddendumInput.withStatus rows)).1 =
      (reconcile base (AddendumInput.withStatus rows)).1 := by
  have hA : toAdd rows = [] := toAdd_eq_nil_of_not_addition rows (fun a ha => (h a ha).1)
  have hC : toChange rows = [] := toChange_eq_nil_of_not_changed rows (fun a ha => (h a ha).2)
  have h1 : (reconcile base (AddendumInput.withStatus rows)).1 =
      (deduplicate_with_salary_resolution
        (afterDeletions (deduplicate_with_salary_resolution base).1 (toDelete rows))).1 :=
    reconcile_merged_of_no_add_change base rows hA hC
  have h2 : (reconcile (reconcile base (AddendumInput.withStatus rows)).1
      (AddendumInput.withStatus rows)).1 =
      (deduplicate_with_salary_resolution
        (afterDeletions
          (deduplicate_with_salary_resolution
            (reconcile base (AddendumInput.withStatus rows)).1).1
          (toDelete rows))).1 :=
    reconcile_merged_of_no_add_change _ rows hA hC
  have h3 : (deduplicate_with_salary_resolution
      (reconcile base (AddendumInput.withStatus rows)).1).1 =
      (reconcile base (AddendumInput.withStatus rows)).1 := by
    rw [h1]
    exact dedup_of_dedup _
  have h4 : afterDeletions (reconcile base (AddendumInput.withStatus rows)).1
      (toDelete rows) = (reconcile base (AddendumInput.withStatus rows)).1 := by
    refine afterDeletions_eq_self _ _ ?_
    intro r hr d hd
    rw [h1] at hr
    have hr2 := deduplicate_subset groupKey totalComp _ r hr
    exact afterDeletions_no_delete_key _ _ r hr2 d hd
  rw [h2, h3, h4, h1]
  exact dedup_of_dedup _

/-- Witness for the amended claim C4: a deletions-only addendum applied
twice gives the same merged output. -/
theorem claim_C4_witness :
    (∀ a ∈ [(⟨exJane "A" 100, Value.str "deletion"⟩ : ARecord)],
      normalize_status_col a.status ≠ Value.str "addition" ∧
      normalize_status_col a.status ≠ Value.str "changed") ∧
    (reconcile (reconcile [exJane "A" 100, exJane "B" 50]
        (AddendumInput.withStatus [⟨exJane "A" 100, Value.str "deletion"⟩])).1
      (AddendumInput.withStatus [⟨exJane "A" 100, Value.str "deletion"⟩])).1 =
      (reconcile [exJane "A" 100, exJane "B" 50]
        (AddendumInput.withStatus [⟨exJane "A" 100, Value.str "deletion"⟩])).1 :=
  ⟨by with_unfolding_all decide,
   claim_C4_idempotent_amended [exJane "A" 100, exJane "B" 50]
     [⟨exJane "A" 100, Value.str "deletion"⟩] (by with_unfolding_all decide)⟩
